import Mathlib

/-!
Verification of the dependency-resolution and layered-execution engine of the
`init_static` crate.  The definitions below are a shallow embedding of
`src/init_static/src/lib.rs` (the `init_static` entry point, its symbol map,
dependency resolution and scheduler loop) together with the `Symbol` identity
type of `src/init_static/src/init_static.rs`.

Nondeterminism in the source (iteration order of the per-layer `HashSet`, and
which outstanding future `FuturesUnordered::next` completes first) is modelled
by an oracle `o : Nat → Nat`: every choice the runtime could make corresponds
to some oracle, and the theorems quantify over all oracles.
-/

namespace InitStatic

/-- Mirror of `Symbol` in `src/init_static/src/init_static.rs`: source location
and identity of a declared static.  Equality is structural, as in the derived
`PartialEq`/`Eq`/`Hash` of the Rust struct. -/
structure Symbol where
  file : String
  line : Nat
  column : Nat
  module : String
  ident : String
deriving DecidableEq, Repr

/-- Mirror of `Display for Symbol`: `"{ident} (at {file}:{line}:{column})"`. -/
def Symbol.display (s : Symbol) : String :=
  s.ident ++ " (at " ++ s.file ++ ":" ++ toString s.line ++ ":" ++ toString s.column ++ ")"

/-- Mirror of `InitFn` in the `__private` module of `lib.rs`: an init function
is either synchronous (`Sync`, an immediate task) or asynchronous (`Async`, a
suspending task). -/
inductive InitFnKind where
  | sync
  | async
deriving DecidableEq, Repr

/-- Mirror of one `Init` registration record (the `__private::Init` struct):
its symbol, whether its init function is sync or async, the result the action
produces when it is actually run (`anyhow::Result<()>`, modelled as
`Except String Unit`), and the output of its `deps` function
(`Vec<Option<&'static Symbol>>`). -/
structure Task where
  symbol : Symbol
  kind : InitFnKind
  result : Except String Unit
  deps : List (Option Symbol)

instance : DecidableEq (Except String Unit) := fun a b =>
  match a, b with
  | .ok (), .ok () => isTrue rfl
  | .error x, .error y =>
    if h : x = y then isTrue (by rw [h]) else isFalse (fun hc => h (by injection hc))
  | .ok _, .error _ => isFalse (fun hc => Except.noConfusion hc)
  | .error _, .ok _ => isFalse (fun hc => Except.noConfusion hc)

def defaultTask : Task :=
  { symbol := ⟨"", 0, 0, "", ""⟩, kind := .sync, result := .ok (), deps := [] }

instance : Inhabited Task := ⟨defaultTask⟩

/-- Indexing `INIT[i]`; in the source all indices are in range, out-of-range
access is irrelevant and modelled by a default. -/
def taskAt (tasks : List Task) (i : Nat) : Task :=
  tasks.getD i defaultTask

/-- Mirror of `InitError` in `src/init_static/src/lib.rs` (the module that is
actually compiled; `src/error.rs` is not part of the crate's module tree).
`Ambiguous` carries the duplicated symbol, `Circular` the symbols of every
remaining task, `Execution` the wrapped action error. -/
inductive InitError where
  | Ambiguous (symbol : Symbol)
  | Circular (symbols : List Symbol)
  | Execution (e : String)
deriving DecidableEq, Repr

/-- Mirror of `Display for InitError` in `lib.rs`: the `Execution` arm is
`Display::fmt(e, f)`, i.e. exactly the underlying error text. -/
def InitError.display : InitError → String
  | .Ambiguous s => "Symbol " ++ s.display ++ " is defined multiple times."
  | .Circular syms =>
      "Circular dependency detected among:\n"
        ++ String.join (syms.map (fun s => "    " ++ s.display ++ "\n"))
  | .Execution e => e

/-- Mirror of `InitOptionsInner` (the one `debug` flag). -/
structure InitOptionsInner where
  debug : Bool
deriving DecidableEq, Repr

def optsDefault : InitOptionsInner := ⟨false⟩

/-- Initial contents of the `INIT_OPTIONS` cell: `Some(InitOptionsInner { debug: false })`. -/
def initOptionsCell : Option InitOptionsInner := some optsDefault

/-- Scheduler events recorded by the model: `start i` when task `i`'s action is
invoked (for a sync task) or dispatched into the `FuturesUnordered` set (for an
async task); `finish i` when the driver observes task `i`'s successful
completion. -/
inductive Ev where
  | start (i : Nat)
  | finish (i : Nat)
deriving DecidableEq, Repr

/-- Outcome of the modelled run. `stuck` is the fuel-exhaustion marker of the
model only; the theorems show it is never returned with the fuel
`init_static` is given. -/
inductive RunResult where
  | ok
  | error (e : InitError)
  | stuck
deriving DecidableEq, Repr

/-- Mirror of building `symbol_map`: iterate over the registered tasks'
symbols, insert each into the map, and fail with `InitError::Ambiguous` as
soon as an insert finds the key already present. -/
def buildSymbolMap : List Symbol → Nat → List (Symbol × Nat) →
    Except InitError (List (Symbol × Nat))
  | [], _, acc => .ok acc
  | s :: rest, i, acc =>
    if (acc.find? (fun p => p.1 == s)).isSome then .error (.Ambiguous s)
    else buildSymbolMap rest (i + 1) ((s, i) :: acc)

/-- Mirror of `symbol_map.get`. -/
def smLookup (m : List (Symbol × Nat)) (s : Symbol) : Option Nat :=
  (m.find? (fun p => p.1 == s)).map (fun p => p.2)

/-- Mirror of resolving one task's `deps` list:
`deps().into_iter().filter_map(|symbol| Some(*symbol_map.get(symbol?)?)).collect::<HashSet<_>>()` —
`None` entries and names absent from the map are silently dropped. -/
def resolveDeps (m : List (Symbol × Nat)) (deps : List (Option Symbol)) : Finset Nat :=
  (deps.filterMap (fun os => os.bind (smLookup m))).toFinset

/-- Mirror of building `adjacent`: for every task index, the set of indices it
still waits on. -/
def buildAdjacent (m : List (Symbol × Nat)) (tasks : List Task) : List (Nat × Finset Nat) :=
  (List.range tasks.length).map (fun i => (i, resolveDeps m (taskAt tasks i).deps))

/-- Resolved dependency function of a task list under a symbol map. -/
def depFunOf (m : List (Symbol × Nat)) (tasks : List Task) (i : Nat) : Finset Nat :=
  resolveDeps m (taskAt tasks i).deps

/-- Oracle-driven permutation: the order in which `for i in layer` walks the
per-layer `HashSet`.  Repeatedly selects the element at position
`o k % length` among those not yet emitted; every permutation of the layer is
realised by some oracle. -/
def shuffleAux (o : Nat → Nat) : Nat → Nat → List Nat → List Nat
  | 0, _, _ => []
  | _ + 1, _, [] => []
  | fuel + 1, k, x :: xs =>
    let y := (x :: xs).getD (o k % (x :: xs).length) 0
    y :: shuffleAux o fuel (k + 1) ((x :: xs).erase y)

def shuffle (o : Nat → Nat) (k : Nat) (l : List Nat) : List Nat :=
  shuffleAux o l.length k l

/-- Result of processing one extracted layer. -/
inductive LayerOut where
  | aborted (trace : List Ev) (e : String)
  | done (rest : List (Nat × Finset Nat)) (js : List Nat) (trace : List Ev) (hasSync : Bool)

/-- Mirror of the `for i in layer` body: a sync task runs at once — on error
the whole run aborts (`f()?`), on success the task's index is removed from
every remaining dependency set and `has_sync` is set; an async task is pushed
into the outstanding set without blocking. -/
def processLayer (tasks : List Task) :
    List Nat → List (Nat × Finset Nat) → List Nat → List Ev → Bool → LayerOut
  | [], rest, js, tr, hs => .done rest js tr hs
  | i :: l, rest, js, tr, hs =>
    match (taskAt tasks i).kind with
    | .sync =>
      match (taskAt tasks i).result with
      | .error e => .aborted (tr ++ [.start i]) e
      | .ok _ =>
        processLayer tasks l (rest.map (fun p => (p.1, p.2.erase i))) js
          (tr ++ [.start i, .finish i]) true
    | .async => processLayer tasks l rest (js ++ [i]) (tr ++ [.start i]) hs

/-- Mirror of the scheduler loop of `init_static`:
`while !adjacent.is_empty() || !join_set.is_empty()` — extract the ready layer,
process it, continue at once if any sync task ran, otherwise fail with
`Circular` if nothing is outstanding, otherwise await one outstanding
completion (chosen by the oracle), propagate its error or remove it from every
dependency set. -/
def loop (tasks : List Task) (o : Nat → Nat) :
    Nat → Nat → List (Nat × Finset Nat) → List Nat → List Ev → List Ev × RunResult
  | 0, _, _, _, tr => (tr, .stuck)
  | fuel + 1, k, adjacent, js, tr =>
    if adjacent.isEmpty && js.isEmpty then (tr, .ok)
    else
      let layer := (adjacent.filter (fun p => decide (p.2 = ∅))).map (fun p => p.1)
      let rest := adjacent.filter (fun p => !decide (p.2 = ∅))
      match processLayer tasks (shuffle o k layer) rest js tr false with
      | .aborted tr' e => (tr', .error (.Execution e))
      | .done rest' js' tr' hasSync =>
        if hasSync then loop tasks o fuel (k + layer.length + 1) rest' js' tr'
        else if js'.isEmpty then
          (tr', .error (.Circular (rest'.map (fun p => (taskAt tasks p.1).symbol))))
        else
          let j := js'.getD (o (k + layer.length) % js'.length) 0
          match (taskAt tasks j).result with
          | .error e => (tr', .error (.Execution e))
          | .ok _ =>
            loop tasks o fuel (k + layer.length + 1)
              (rest'.map (fun p => (p.1, p.2.erase j))) (js'.erase j) (tr' ++ [.finish j])

/-- Result of one call of the `init_static` entry point: either a panic (the
`expect` on the already-taken options cell) or a returned value, together with
the trace of scheduler events of that call. -/
inductive Entry where
  | panicked (msg : String)
  | returned (trace : List Ev) (res : RunResult)
deriving DecidableEq, Repr

/-- Mirror of `async fn init_static()` given the current contents of the
`INIT_OPTIONS` cell: take the options (panicking if already taken), build the
symbol map (failing with `Ambiguous` on a duplicate), build the adjacency
lists, then run the scheduler loop. -/
def initStaticFrom (cell : Option InitOptionsInner) (tasks : List Task) (o : Nat → Nat) :
    Entry :=
  match cell with
  | none => .panicked "`init_static` can only be called once."
  | some _ =>
    match buildSymbolMap (tasks.map Task.symbol) 0 [] with
    | .error e => .returned [] (.error e)
    | .ok m =>
      let r := loop tasks o (2 * tasks.length + 1) 0 (buildAdjacent m tasks) [] []
      .returned r.1 r.2

/-- One call of the entry point as a transition on the process-wide
`INIT_OPTIONS` cell: `take()` empties the cell unconditionally, then the run
proceeds (or panics) on the taken value. -/
def callInitStatic (cell : Option InitOptionsInner) (tasks : List Task) (o : Nat → Nat) :
    Option InitOptionsInner × Entry :=
  (none, initStaticFrom cell tasks o)

/-- Task `i` was started (invoked or dispatched) in the trace. -/
def started (tr : List Ev) (i : Nat) : Prop := Ev.start i ∈ tr

/-- Task `i` completed successfully in the trace. -/
def finished (tr : List Ev) (i : Nat) : Prop := Ev.finish i ∈ tr

instance (tr : List Ev) (i : Nat) : Decidable (started tr i) := by
  unfold started; infer_instance

instance (tr : List Ev) (i : Nat) : Decidable (finished tr i) := by
  unfold finished; infer_instance

/-- Set of completed task indices visible in the trace. -/
def finSet (n : Nat) (tr : List Ev) : Finset Nat :=
  (Finset.range n).filter (fun i => finished tr i)

/-- Indices of the tasks never started, in declaration order. -/
def unstartedList (n : Nat) (tr : List Ev) : List Nat :=
  (List.range n).filter (fun i => decide (¬ started tr i))

/-- Sequence of task indices in start order. -/
def startsOf (tr : List Ev) : List Nat :=
  tr.filterMap (fun e => match e with | .start i => some i | .finish _ => none)

/-- Transitive dependency: `DependsOn dep i j` when task `i` reaches task `j`
along resolved dependency edges. -/
inductive DependsOn (dep : Nat → Finset Nat) : Nat → Nat → Prop where
  | direct {i j : Nat} : j ∈ dep i → DependsOn dep i j
  | step {i j k : Nat} : j ∈ dep i → DependsOn dep j k → DependsOn dep i k

/-- Expected trace of one layer iteration when no action fails: each sync
task contributes an adjacent start/finish pair (it runs to completion on the
calling thread before the next task is touched), each async task contributes
its dispatch event. -/
def layerTrace (tasks : List Task) : List Nat → List Ev
  | [] => []
  | i :: l =>
    (match (taskAt tasks i).kind with
      | .sync => [Ev.start i, Ev.finish i]
      | .async => [Ev.start i]) ++ layerTrace tasks l

/-- Invariant of the scheduler loop, relating the remaining adjacency lists
`adj`, the extracted-but-unprocessed part of the current layer `pending`, the
outstanding async tasks `js` and the event trace `tr`. -/
structure Inv (tasks : List Task) (dep : Nat → Finset Nat)
    (pending : List Nat) (adj : List (Nat × Finset Nat)) (js : List Nat)
    (tr : List Ev) : Prop where
  adj_lt : ∀ p ∈ adj, p.1 < tasks.length
  adj_deps : ∀ p ∈ adj, p.2 = dep p.1 \ finSet tasks.length tr
  adj_sorted : adj.Pairwise (fun p q => p.1 < q.1)
  pend_lt : ∀ i ∈ pending, i < tasks.length
  pend_ready : ∀ i ∈ pending, dep i ⊆ finSet tasks.length tr
  pend_nodup : pending.Nodup
  js_nodup : js.Nodup
  adj_not_js : ∀ p ∈ adj, p.1 ∉ js
  adj_not_pend : ∀ p ∈ adj, p.1 ∉ pending
  pend_not_js : ∀ i ∈ pending, i ∉ js
  unstarted_iff : ∀ i, i < tasks.length →
    ((i ∈ adj.map Prod.fst ∨ i ∈ pending) ↔ ¬ started tr i)
  js_started : ∀ i ∈ js, started tr i ∧ ¬ finished tr i
  js_lt : ∀ i ∈ js, i < tasks.length
  fin_facts : ∀ i, finished tr i →
    i < tasks.length ∧ started tr i ∧ (taskAt tasks i).result = Except.ok ()
  start_count : ∀ i, started tr i → tr.count (Ev.start i) = 1
  fin_count : ∀ i, finished tr i → tr.count (Ev.finish i) = 1
  start_lt : ∀ i, started tr i → i < tasks.length
  order : ∀ i j, j ∈ dep i → started tr i → List.Sublist [Ev.finish j, Ev.start i] tr
  started_fin_js : ∀ i, started tr i → finished tr i ∨ i ∈ js

/-- Trace-only consequences of the invariant, stable across the run's end. -/
def TraceFacts (tasks : List Task) (dep : Nat → Finset Nat) (tr : List Ev) : Prop :=
  (∀ i, started tr i → i < tasks.length ∧ tr.count (Ev.start i) = 1) ∧
  (∀ i, finished tr i →
    started tr i ∧ tr.count (Ev.finish i) = 1 ∧ (taskAt tasks i).result = Except.ok ()) ∧
  (∀ i j, j ∈ dep i → started tr i → List.Sublist [Ev.finish j, Ev.start i] tr)

/-- What each terminal result of the scheduler loop guarantees about the final
trace. -/
def GoodOutcome (tasks : List Task) (dep : Nat → Finset Nat)
    (res : RunResult) (tr : List Ev) : Prop :=
  match res with
  | .ok => ∀ i, i < tasks.length → finished tr i
  | .error (.Execution e) =>
      (∃ f, f < tasks.length ∧ (taskAt tasks f).result = Except.error e ∧
        started tr f ∧ ¬ finished tr f) ∧
      (∀ x, finished tr x → (taskAt tasks x).result = Except.ok ())
  | .error (.Circular syms) =>
      syms = (unstartedList tasks.length tr).map (fun i => (taskAt tasks i).symbol) ∧
      unstartedList tasks.length tr ≠ [] ∧
      (∀ i ∈ unstartedList tasks.length tr, (dep i \ finSet tasks.length tr).Nonempty) ∧
      (∀ i, started tr i → finished tr i)
  | .error (.Ambiguous _) => False
  | .stuck => False

/-- Appending one dependency reference that resolves to no provider to the
`deps` list of task `j` (a no-op on every other field). -/
def addExternalDep (tasks : List Task) (j : Nat) (s : Symbol) : List Task :=
  tasks.set j
    { taskAt tasks j with deps := (taskAt tasks j).deps ++ [some s] }

/-! ### Concrete tasks used to instantiate the theorems -/

def symA : Symbol := ⟨"src/a.rs", 1, 1, "app", "FOO"⟩

def symB : Symbol := ⟨"src/b.rs", 2, 1, "app", "BAR"⟩

def symC : Symbol := ⟨"src/c.rs", 3, 1, "app", "BAZ"⟩

def symP : Symbol := ⟨"src/p.rs", 4, 1, "app", "P1"⟩

def symQ : Symbol := ⟨"src/q.rs", 5, 1, "app", "Q1"⟩

def symX : Symbol := ⟨"init_static/tests/circular.rs", 6, 16, "circular", "FOO"⟩

def symY : Symbol := ⟨"init_static/tests/circular.rs", 7, 16, "circular", "BAR"⟩

def symFail : Symbol := ⟨"init_static/tests/fail.rs", 4, 12, "fail", "FOO"⟩

def symCons : Symbol := ⟨"src/consumer.rs", 9, 1, "app", "CONS"⟩

/-- Immediate task with no dependencies that succeeds. -/
def tA : Task := { symbol := symA, kind := .sync, result := .ok (), deps := [] }

/-- Immediate task requiring `FOO` (provided by `tA`) that succeeds. -/
def tB : Task := { symbol := symB, kind := .sync, result := .ok (), deps := [some symA] }

/-- Immediate tasks with no dependency relationship, for tie-break order. -/
def tP : Task := { symbol := symP, kind := .sync, result := .ok (), deps := [] }

def tQ : Task := { symbol := symQ, kind := .sync, result := .ok (), deps := [] }

/-- Suspending task requiring `BAR` of the 2-cycle. -/
def tXc : Task := { symbol := symX, kind := .async, result := .ok (), deps := [some symY] }

/-- Suspending task requiring `FOO` of the 2-cycle. -/
def tYc : Task := { symbol := symY, kind := .async, result := .ok (), deps := [some symX] }

/-- Immediate task whose action fails like `"malformed".parse::<u32>()`. -/
def tFail : Task :=
  { symbol := symFail, kind := .sync,
    result := .error "invalid digit found in string", deps := [] }

/-- Immediate failing task named `BAR`, for the failure-propagation claim. -/
def tFailB : Task :=
  { symbol := symB, kind := .sync, result := .error "boom", deps := [] }

/-- Immediate task depending on the failing task `tFailB`. -/
def tAfterB : Task :=
  { symbol := symC, kind := .sync, result := .ok (), deps := [some symB] }

/-- Two distinct registrations carrying the same `Symbol` value. -/
def tDup1 : Task := { symbol := symP, kind := .sync, result := .ok (), deps := [] }

def tDup2 : Task := { symbol := symP, kind := .sync, result := .ok (), deps := [] }

/-- Consumer whose required name is provided twice. -/
def tCons : Task := { symbol := symCons, kind := .sync, result := .ok (), deps := [some symP] }

/-! ### Basic lemmas about the oracle permutation -/

theorem shuffleAux_perm (o : Nat → Nat) :
    ∀ fuel k (l : List Nat), l.length ≤ fuel → (shuffleAux o fuel k l).Perm l := by
  intro fuel
  induction fuel with
  | zero =>
    intro k l hl
    have : l = [] := List.length_eq_zero.mp (Nat.le_zero.mp hl)
    subst this; simp [shuffleAux]
  | succ fuel ih =>
    intro k l hl
    match l with
    | [] => simp [shuffleAux]
    | x :: xs =>
      have hpos : 0 < (x :: xs).length := by simp
      have hj : o k % (x :: xs).length < (x :: xs).length := Nat.mod_lt _ hpos
      have hy : (x :: xs).getD (o k % (x :: xs).length) 0 ∈ x :: xs := by
        rw [List.getD_eq_getElem _ _ hj]
        exact List.getElem_mem hj
      have hlen : ((x :: xs).erase ((x :: xs).getD (o k % (x :: xs).length) 0)).length ≤ fuel := by
        rw [List.length_erase_of_mem hy]
        omega
      have hperm := ih (k + 1) _ hlen
      have heq : shuffleAux o (fuel + 1) k (x :: xs)
          = (x :: xs).getD (o k % (x :: xs).length) 0 ::
              shuffleAux o fuel (k + 1)
                ((x :: xs).erase ((x :: xs).getD (o k % (x :: xs).length) 0)) := rfl
      rw [heq]
      exact (List.Perm.cons _ hperm).trans (List.perm_cons_erase hy).symm

theorem shuffle_perm (o : Nat → Nat) (k : Nat) (l : List Nat) : (shuffle o k l).Perm l :=
  shuffleAux_perm o l.length k l le_rfl

/-! ### Lemmas about the symbol map construction -/

theorem bsm_ok_nodup :
    ∀ (syms : List Symbol) (i : Nat) (acc m : List (Symbol × Nat)),
      buildSymbolMap syms i acc = .ok m →
      syms.Nodup ∧ ∀ s ∈ syms, acc.find? (fun p => p.1 == s) = none := by
  intro syms
  induction syms with
  | nil => intro i acc m _; simp
  | cons s₀ rest ih =>
    intro i acc m h
    rw [buildSymbolMap] at h
    by_cases hfind : (acc.find? (fun p => p.1 == s₀)).isSome
    · simp [hfind] at h
    · simp [hfind] at h
      obtain ⟨hnd, hall⟩ := ih (i + 1) ((s₀, i) :: acc) m h
      have hnone₀ : acc.find? (fun p => p.1 == s₀) = none :=
        Option.not_isSome_iff_eq_none.mp hfind
      have hrest : ∀ s ∈ rest, s ≠ s₀ ∧ acc.find? (fun p => p.1 == s) = none := by
        intro s hs
        have := hall s hs
        rw [List.find?_cons] at this
        by_cases hee : s₀ = s
        · subst hee; simp at this
        · constructor
          · exact fun hc => hee hc.symm
          · have hb : ((s₀, i).1 == s) = false := by
              simp [hee]
            rw [hb] at this
            exact this
      refine ⟨List.nodup_cons.mpr ⟨fun hc => (hrest s₀ hc).1 rfl, hnd⟩, ?_⟩
      intro s hs
      rcases List.mem_cons.mp hs with h1 | h1
      · subst h1; exact hnone₀
      · exact (hrest s h1).2

theorem bsm_error :
    ∀ (syms : List Symbol) (i : Nat) (acc : List (Symbol × Nat)) (e : InitError),
      buildSymbolMap syms i acc = .error e →
      ∃ s, e = .Ambiguous s ∧
        ((acc.find? (fun p => p.1 == s)).isSome ∧ s ∈ syms ∨ 2 ≤ syms.count s) := by
  intro syms
  induction syms with
  | nil => intro i acc e h; rw [buildSymbolMap] at h; cases h
  | cons s₀ rest ih =>
    intro i acc e h
    rw [buildSymbolMap] at h
    by_cases hfind : (acc.find? (fun p => p.1 == s₀)).isSome
    · simp [hfind] at h
      exact ⟨s₀, h.symm, Or.inl ⟨hfind, List.mem_cons_self _ _⟩⟩
    · simp [hfind] at h
      obtain ⟨s, he, hcase⟩ := ih (i + 1) ((s₀, i) :: acc) e h
      refine ⟨s, he, ?_⟩
      rcases hcase with ⟨hsome, hmem⟩ | hcount
      · rw [List.find?_cons] at hsome
        by_cases hee : s₀ = s
        · subst hee
          right
          have : 1 ≤ rest.count s₀ := List.count_pos_iff.mpr hmem
          rw [List.count_cons_self]
          omega
        · have hb : ((s₀, i).1 == s) = false := by simp [hee]
          rw [hb] at hsome
          exact Or.inl ⟨hsome, List.mem_cons_of_mem _ hmem⟩
      · right
        have : rest.count s ≤ (s₀ :: rest).count s := by
          rw [List.count_cons]; omega
        omega

theorem bsm_mem :
    ∀ (syms : List Symbol) (i : Nat) (acc m : List (Symbol × Nat)),
      buildSymbolMap syms i acc = .ok m →
      ∀ p ∈ m, p ∈ acc ∨ (p.1 ∈ syms ∧ p.2 < i + syms.length) := by
  intro syms
  induction syms with
  | nil =>
    intro i acc m h p hp
    rw [buildSymbolMap] at h
    cases h
    exact Or.inl hp
  | cons s₀ rest ih =>
    intro i acc m h p hp
    rw [buildSymbolMap] at h
    by_cases hfind : (acc.find? (fun p => p.1 == s₀)).isSome
    · simp [hfind] at h
    · simp [hfind] at h
      rcases ih (i + 1) ((s₀, i) :: acc) m h p hp with h1 | h1
      · rcases List.mem_cons.mp h1 with h2 | h2
        · subst h2
          right
          constructor
          · exact List.mem_cons_self _ _
          · simp
        · exact Or.inl h2
      · right
        refine ⟨List.mem_cons_of_mem _ h1.1, ?_⟩
        have := h1.2
        simp at this ⊢
        omega

theorem smLookup_lt (syms : List Symbol) (m : List (Symbol × Nat))
    (h : buildSymbolMap syms 0 [] = .ok m) (s : Symbol) (j : Nat)
    (hj : smLookup m s = some j) : j < syms.length := by
  unfold smLookup at hj
  match hfind : m.find? (fun p => p.1 == s) with
  | none => rw [hfind] at hj; cases hj
  | some p =>
    rw [hfind] at hj
    simp at hj
    have hpm : p ∈ m := List.mem_of_find?_eq_some hfind
    rcases bsm_mem syms 0 [] m h p hpm with h1 | h1
    · cases h1
    · omega

theorem smLookup_none (syms : List Symbol) (m : List (Symbol × Nat))
    (h : buildSymbolMap syms 0 [] = .ok m) (s : Symbol) (hs : s ∉ syms) :
    smLookup m s = none := by
  unfold smLookup
  have : m.find? (fun p => p.1 == s) = none := by
    rw [List.find?_eq_none]
    intro p hp hps
    rcases bsm_mem syms 0 [] m h p hp with h1 | h1
    · cases h1
    · apply hs
      have : p.1 = s := by simpa using hps
      rw [← this]
      exact h1.1
  rw [this]
  rfl

theorem resolveDeps_lt (syms : List Symbol) (m : List (Symbol × Nat))
    (h : buildSymbolMap syms 0 [] = .ok m) (deps : List (Option Symbol)) :
    ∀ j ∈ resolveDeps m deps, j < syms.length := by
  intro j hj
  unfold resolveDeps at hj
  rw [List.mem_toFinset, List.mem_filterMap] at hj
  obtain ⟨os, _, hos⟩ := hj
  match os with
  | none => cases hos
  | some s =>
    simp at hos
    exact smLookup_lt syms m h s j hos

/-! ### Trace helper lemmas -/

theorem count_pos_iff_started (tr : List Ev) (i : Nat) :
    started tr i ↔ 0 < tr.count (Ev.start i) := by
  unfold started
  exact (List.count_pos_iff).symm

theorem count_zero_of_not_started {tr : List Ev} {i : Nat} (h : ¬ started tr i) :
    tr.count (Ev.start i) = 0 :=
  List.count_eq_zero.mpr h

theorem count_zero_of_not_finished {tr : List Ev} {i : Nat} (h : ¬ finished tr i) :
    tr.count (Ev.finish i) = 0 :=
  List.count_eq_zero.mpr h

theorem started_app_start {tr : List Ev} {i x : Nat} :
    started (tr ++ [Ev.start i]) x ↔ started tr x ∨ x = i := by
  simp [started]

theorem finished_app_start {tr : List Ev} {i x : Nat} :
    finished (tr ++ [Ev.start i]) x ↔ finished tr x := by
  simp [finished]

theorem started_app_startfin {tr : List Ev} {i x : Nat} :
    started (tr ++ [Ev.start i, Ev.finish i]) x ↔ started tr x ∨ x = i := by
  simp [started]

theorem finished_app_startfin {tr : List Ev} {i x : Nat} :
    finished (tr ++ [Ev.start i, Ev.finish i]) x ↔ finished tr x ∨ x = i := by
  simp [finished]

theorem started_app_fin {tr : List Ev} {j x : Nat} :
    started (tr ++ [Ev.finish j]) x ↔ started tr x := by
  simp [started]

theorem finished_app_fin {tr : List Ev} {j x : Nat} :
    finished (tr ++ [Ev.finish j]) x ↔ finished tr x ∨ x = j := by
  simp [finished]

theorem finSet_app_start (n : Nat) (tr : List Ev) (i : Nat) :
    finSet n (tr ++ [Ev.start i]) = finSet n tr := by
  unfold finSet
  apply Finset.filter_congr
  intro x _
  simp [finished_app_start]

theorem finSet_app_startfin (n : Nat) (tr : List Ev) (i : Nat) (hi : i < n) :
    finSet n (tr ++ [Ev.start i, Ev.finish i]) = insert i (finSet n tr) := by
  unfold finSet
  ext x
  simp only [Finset.mem_filter, Finset.mem_insert, Finset.mem_range, decide_eq_true_eq]
  rw [finished_app_startfin]
  constructor
  · rintro ⟨hx, h | h⟩
    · exact Or.inr ⟨hx, h⟩
    · exact Or.inl h
  · rintro (h | ⟨hx, h⟩)
    · subst h; exact ⟨hi, Or.inr rfl⟩
    · exact ⟨hx, Or.inl h⟩

theorem finSet_app_fin (n : Nat) (tr : List Ev) (j : Nat) (hj : j < n) :
    finSet n (tr ++ [Ev.finish j]) = insert j (finSet n tr) := by
  unfold finSet
  ext x
  simp only [Finset.mem_filter, Finset.mem_insert, Finset.mem_range, decide_eq_true_eq]
  rw [finished_app_fin]
  constructor
  · rintro ⟨hx, h | h⟩
    · exact Or.inr ⟨hx, h⟩
    · exact Or.inl h
  · rintro (h | ⟨hx, h⟩)
    · subst h; exact ⟨hj, Or.inr rfl⟩
    · exact ⟨hx, Or.inl h⟩

theorem mem_finSet {n : Nat} {tr : List Ev} {x : Nat} :
    x ∈ finSet n tr ↔ x < n ∧ finished tr x := by
  simp [finSet]

theorem erase_sdiff_insert (a s : Finset Nat) (i : Nat) :
    (a \ s).erase i = a \ insert i s := by
  rw [Finset.erase_eq, Finset.insert_eq, sdiff_sdiff, sup_comm]
  rfl

theorem pair_sublist_append {a b : Ev} {tr l₂ : List Ev} (ha : a ∈ tr) (hb : [b].Sublist l₂) :
    List.Sublist [a, b] (tr ++ l₂) :=
  List.Sublist.append (List.singleton_sublist.mpr ha) hb

theorem sublist_extend {l tr l₂ : List Ev} (h : l.Sublist tr) : l.Sublist (tr ++ l₂) :=
  h.trans (List.sublist_append_left tr l₂)

theorem map_fst_eraseMap (adj : List (Nat × Finset Nat)) (x : Nat) :
    (adj.map (fun p => (p.1, p.2.erase x))).map Prod.fst = adj.map Prod.fst := by
  rw [List.map_map]; rfl

/-! ### The scheduler invariant -/

theorem Inv.traceFacts {tasks : List Task} {dep : Nat → Finset Nat}
    {pending : List Nat} {adj : List (Nat × Finset Nat)} {js : List Nat} {tr : List Ev}
    (hI : Inv tasks dep pending adj js tr) : TraceFacts tasks dep tr := by
  refine ⟨fun i h => ⟨hI.start_lt i h, hI.start_count i h⟩, fun i h => ?_, hI.order⟩
  exact ⟨(hI.fin_facts i h).2.1, hI.fin_count i h, (hI.fin_facts i h).2.2⟩

theorem fst_inj_of_pairwise {adj : List (Nat × Finset Nat)}
    (h : adj.Pairwise (fun p q => p.1 < q.1)) :
    ∀ p ∈ adj, ∀ q ∈ adj, p.1 = q.1 → p = q := by
  induction adj with
  | nil => intro p hp; cases hp
  | cons a t ih =>
    intro p hp q hq heq
    rcases List.mem_cons.mp hp with h1 | h1 <;> rcases List.mem_cons.mp hq with h2 | h2
    · rw [h1, h2]
    · subst h1
      have := (List.pairwise_cons.mp h).1 q h2
      omega
    · subst h2
      have := (List.pairwise_cons.mp h).1 p h1
      omega
    · exact ih (List.pairwise_cons.mp h).2 p h1 q h2 heq

/-- Effect of a successfully completing sync task on the invariant. -/
theorem Inv.syncStep {tasks : List Task} {dep : Nat → Finset Nat}
    {i : Nat} {l : List Nat} {adj : List (Nat × Finset Nat)} {js : List Nat} {tr : List Ev}
    (hI : Inv tasks dep (i :: l) adj js tr)
    (hok : (taskAt tasks i).result = Except.ok ()) :
    Inv tasks dep l (adj.map (fun p => (p.1, p.2.erase i))) js
      (tr ++ [Ev.start i, Ev.finish i]) := by
  have hiN : i < tasks.length := hI.pend_lt i (List.mem_cons_self _ _)
  have hiUnstarted : ¬ started tr i :=
    (hI.unstarted_iff i hiN).mp (Or.inr (List.mem_cons_self _ _))
  have hiUnfin : ¬ finished tr i := fun h => hiUnstarted (hI.fin_facts i h).2.1
  have hfs : finSet tasks.length (tr ++ [Ev.start i, Ev.finish i])
      = insert i (finSet tasks.length tr) := finSet_app_startfin _ _ _ hiN
  have hiNotJs : i ∉ js := hI.pend_not_js i (List.mem_cons_self _ _)
  refine ⟨?_, ?_, ?_, ?_, ?_, ?_, ?_, ?_, ?_, ?_, ?_, ?_, ?_, ?_, ?_, ?_, ?_, ?_, ?_⟩
  · intro p hp
    obtain ⟨q, hq, rfl⟩ := List.mem_map.mp hp
    exact hI.adj_lt q hq
  · intro p hp
    obtain ⟨q, hq, rfl⟩ := List.mem_map.mp hp
    show q.2.erase i = dep q.1 \ finSet tasks.length (tr ++ [Ev.start i, Ev.finish i])
    rw [hI.adj_deps q hq, hfs, erase_sdiff_insert]
  · rw [List.pairwise_map]
    exact hI.adj_sorted
  · exact fun x hx => hI.pend_lt x (List.mem_cons_of_mem _ hx)
  · intro x hx
    exact (hI.pend_ready x (List.mem_cons_of_mem _ hx)).trans
      (by rw [hfs]; exact Finset.subset_insert _ _)
  · exact (List.nodup_cons.mp hI.pend_nodup).2
  · exact hI.js_nodup
  · intro p hp
    obtain ⟨q, hq, rfl⟩ := List.mem_map.mp hp
    exact hI.adj_not_js q hq
  · intro p hp
    obtain ⟨q, hq, rfl⟩ := List.mem_map.mp hp
    exact fun hc => hI.adj_not_pend q hq (List.mem_cons_of_mem _ hc)
  · exact fun x hx => hI.pend_not_js x (List.mem_cons_of_mem _ hx)
  · intro x hxN
    rw [map_fst_eraseMap, started_app_startfin]
    constructor
    · rintro (hm | hm)
      · have hxi : x ≠ i := by
          obtain ⟨q, hq, rfl⟩ := List.mem_map.mp hm
          exact fun hc => hI.adj_not_pend q hq (hc ▸ List.mem_cons_self _ _)
        have := (hI.unstarted_iff x hxN).mp (Or.inl hm)
        tauto
      · have hxi : x ≠ i := fun hc =>
          (List.nodup_cons.mp hI.pend_nodup).1 (hc ▸ hm)
        have := (hI.unstarted_iff x hxN).mp (Or.inr (List.mem_cons_of_mem _ hm))
        tauto
    · intro hns
      have hxi : x ≠ i := fun hc => hns (Or.inr hc)
      have hnold : ¬ started tr x := fun hc => hns (Or.inl hc)
      rcases (hI.unstarted_iff x hxN).mpr hnold with hm | hm
      · exact Or.inl hm
      · rcases List.mem_cons.mp hm with h1 | h1
        · exact absurd h1 hxi
        · exact Or.inr h1
  · intro x hx
    have hxi : x ≠ i := fun hc => hiNotJs (hc ▸ hx)
    have h1 := hI.js_started x hx
    constructor
    · exact started_app_startfin.mpr (Or.inl h1.1)
    · rw [finished_app_startfin]
      tauto
  · exact hI.js_lt
  · intro x hx
    rw [finished_app_startfin] at hx
    rcases hx with hx | rfl
    · obtain ⟨h1, h2, h3⟩ := hI.fin_facts x hx
      exact ⟨h1, started_app_startfin.mpr (Or.inl h2), h3⟩
    · exact ⟨hiN, started_app_startfin.mpr (Or.inr rfl), hok⟩
  · intro x hx
    rw [started_app_startfin] at hx
    rw [List.count_append]
    rcases hx with hx | rfl
    · have hxi : x ≠ i := fun hc => hiUnstarted (hc ▸ hx)
      rw [hI.start_count x hx]
      simp [List.count_cons, hxi]
    · rw [count_zero_of_not_started hiUnstarted]
      simp [List.count_cons]
  · intro x hx
    rw [finished_app_startfin] at hx
    rw [List.count_append]
    rcases hx with hx | rfl
    · have hxi : x ≠ i := fun hc => hiUnfin (hc ▸ hx)
      rw [hI.fin_count x hx]
      simp [List.count_cons, hxi]
    · rw [count_zero_of_not_finished hiUnfin]
      simp [List.count_cons]
  · intro x hx
    rw [started_app_startfin] at hx
    rcases hx with hx | rfl
    · exact hI.start_lt x hx
    · exact hiN
  · intro x j hj hx
    rw [started_app_startfin] at hx
    rcases hx with hx | rfl
    · exact sublist_extend (hI.order x j hj hx)
    · have hjf : finished tr j := by
        have := hI.pend_ready x (List.mem_cons_self _ _) hj
        exact (mem_finSet.mp this).2
      exact pair_sublist_append hjf
        (List.cons_sublist_cons.mpr (List.nil_sublist _))
  · intro x hx
    rw [started_app_startfin] at hx
    rcases hx with hx | rfl
    · rcases hI.started_fin_js x hx with h1 | h1
      · exact Or.inl (finished_app_startfin.mpr (Or.inl h1))
      · exact Or.inr h1
    · exact Or.inl (finished_app_startfin.mpr (Or.inr rfl))

/-- Effect of dispatching an async task on the invariant. -/
theorem Inv.asyncStep {tasks : List Task} {dep : Nat → Finset Nat}
    {i : Nat} {l : List Nat} {adj : List (Nat × Finset Nat)} {js : List Nat} {tr : List Ev}
    (hI : Inv tasks dep (i :: l) adj js tr) :
    Inv tasks dep l adj (js ++ [i]) (tr ++ [Ev.start i]) := by
  have hiN : i < tasks.length := hI.pend_lt i (List.mem_cons_self _ _)
  have hiUnstarted : ¬ started tr i :=
    (hI.unstarted_iff i hiN).mp (Or.inr (List.mem_cons_self _ _))
  have hiUnfin : ¬ finished tr i := fun h => hiUnstarted (hI.fin_facts i h).2.1
  have hfs : finSet tasks.length (tr ++ [Ev.start i]) = finSet tasks.length tr :=
    finSet_app_start _ _ _
  have hiNotJs : i ∉ js := hI.pend_not_js i (List.mem_cons_self _ _)
  refine ⟨?_, ?_, ?_, ?_, ?_, ?_, ?_, ?_, ?_, ?_, ?_, ?_, ?_, ?_, ?_, ?_, ?_, ?_, ?_⟩
  · exact hI.adj_lt
  · intro p hp
    rw [hfs]
    exact hI.adj_deps p hp
  · exact hI.adj_sorted
  · exact fun x hx => hI.pend_lt x (List.mem_cons_of_mem _ hx)
  · intro x hx
    rw [hfs]
    exact hI.pend_ready x (List.mem_cons_of_mem _ hx)
  · exact (List.nodup_cons.mp hI.pend_nodup).2
  · rw [List.nodup_append]
    exact ⟨hI.js_nodup, List.nodup_singleton _, by simpa using hiNotJs⟩
  · intro p hp
    rw [List.mem_append]
    rintro (hc | hc)
    · exact hI.adj_not_js p hp hc
    · have : p.1 = i := by simpa using hc
      exact hI.adj_not_pend p hp (this ▸ List.mem_cons_self _ _)
  · intro p hp hc
    exact hI.adj_not_pend p hp (List.mem_cons_of_mem _ hc)
  · intro x hx
    rw [List.mem_append]
    rintro (hc | hc)
    · exact hI.pend_not_js x (List.mem_cons_of_mem _ hx) hc
    · have : x = i := by simpa using hc
      exact (List.nodup_cons.mp hI.pend_nodup).1 (this ▸ hx)
  · intro x hxN
    rw [started_app_start]
    constructor
    · rintro (hm | hm)
      · have hxi : x ≠ i := by
          obtain ⟨q, hq, rfl⟩ := List.mem_map.mp hm
          exact fun hc => hI.adj_not_pend q hq (hc ▸ List.mem_cons_self _ _)
        have := (hI.unstarted_iff x hxN).mp (Or.inl hm)
        tauto
      · have hxi : x ≠ i := fun hc =>
          (List.nodup_cons.mp hI.pend_nodup).1 (hc ▸ hm)
        have := (hI.unstarted_iff x hxN).mp (Or.inr (List.mem_cons_of_mem _ hm))
        tauto
    · intro hns
      have hxi : x ≠ i := fun hc => hns (Or.inr hc)
      have hnold : ¬ started tr x := fun hc => hns (Or.inl hc)
      rcases (hI.unstarted_iff x hxN).mpr hnold with hm | hm
      · exact Or.inl hm
      · rcases List.mem_cons.mp hm with h1 | h1
        · exact absurd h1 hxi
        · exact Or.inr h1
  · intro x hx
    rw [List.mem_append] at hx
    rcases hx with hx | hx
    · have h1 := hI.js_started x hx
      exact ⟨started_app_start.mpr (Or.inl h1.1), by rw [finished_app_start]; exact h1.2⟩
    · have hxe : x = i := by simpa using hx
      subst hxe
      exact ⟨started_app_start.mpr (Or.inr rfl), by rw [finished_app_start]; exact hiUnfin⟩
  · intro x hx
    rw [List.mem_append] at hx
    rcases hx with hx | hx
    · exact hI.js_lt x hx
    · have hxe : x = i := by simpa using hx
      exact hxe ▸ hiN
  · intro x hx
    rw [finished_app_start] at hx
    obtain ⟨h1, h2, h3⟩ := hI.fin_facts x hx
    exact ⟨h1, started_app_start.mpr (Or.inl h2), h3⟩
  · intro x hx
    rw [started_app_start] at hx
    rw [List.count_append]
    rcases hx with hx | rfl
    · have hxi : x ≠ i := fun hc => hiUnstarted (hc ▸ hx)
      rw [hI.start_count x hx]
      simp [List.count_cons, hxi]
    · rw [count_zero_of_not_started hiUnstarted]
      simp [List.count_cons]
  · intro x hx
    rw [finished_app_start] at hx
    rw [List.count_append, hI.fin_count x hx]
    simp [List.count_cons]
  · intro x hx
    rw [started_app_start] at hx
    rcases hx with hx | rfl
    · exact hI.start_lt x hx
    · exact hiN
  · intro x j hj hx
    rw [started_app_start] at hx
    rcases hx with hx | rfl
    · exact sublist_extend (hI.order x j hj hx)
    · have hjf : finished tr j := by
        have := hI.pend_ready x (List.mem_cons_self _ _) hj
        exact (mem_finSet.mp this).2
      exact pair_sublist_append hjf (List.Sublist.refl _)
  · intro x hx
    rw [started_app_start] at hx
    rcases hx with hx | rfl
    · rcases hI.started_fin_js x hx with h1 | h1
      · exact Or.inl (finished_app_start.mpr h1)
      · exact Or.inr (List.mem_append.mpr (Or.inl h1))
    · exact Or.inr (List.mem_append.mpr (Or.inr (List.mem_singleton.mpr rfl)))

/-- Effect of the driver observing the successful completion of the async task
`j` on the invariant. -/
theorem Inv.pickStep {tasks : List Task} {dep : Nat → Finset Nat}
    {j : Nat} {adj : List (Nat × Finset Nat)} {js : List Nat} {tr : List Ev}
    (hI : Inv tasks dep [] adj js tr) (hj : j ∈ js)
    (hok : (taskAt tasks j).result = Except.ok ()) :
    Inv tasks dep [] (adj.map (fun p => (p.1, p.2.erase j))) (js.erase j)
      (tr ++ [Ev.finish j]) := by
  have hjN : j < tasks.length := hI.js_lt j hj
  have hjStarted : started tr j := (hI.js_started j hj).1
  have hjUnfin : ¬ finished tr j := (hI.js_started j hj).2
  have hfs : finSet tasks.length (tr ++ [Ev.finish j])
      = insert j (finSet tasks.length tr) := finSet_app_fin _ _ _ hjN
  refine ⟨?_, ?_, ?_, ?_, ?_, ?_, ?_, ?_, ?_, ?_, ?_, ?_, ?_, ?_, ?_, ?_, ?_, ?_, ?_⟩
  · intro p hp
    obtain ⟨q, hq, rfl⟩ := List.mem_map.mp hp
    exact hI.adj_lt q hq
  · intro p hp
    obtain ⟨q, hq, rfl⟩ := List.mem_map.mp hp
    show q.2.erase j = dep q.1 \ finSet tasks.length (tr ++ [Ev.finish j])
    rw [hI.adj_deps q hq, hfs, erase_sdiff_insert]
  · rw [List.pairwise_map]
    exact hI.adj_sorted
  · intro x hx; cases hx
  · intro x hx; cases hx
  · exact List.nodup_nil
  · exact hI.js_nodup.erase j
  · intro p hp
    obtain ⟨q, hq, rfl⟩ := List.mem_map.mp hp
    exact fun hc => hI.adj_not_js q hq (List.mem_of_mem_erase hc)
  · intro p _ hc; cases hc
  · intro x hx; cases hx
  · intro x hxN
    rw [map_fst_eraseMap, started_app_fin]
    have := hI.unstarted_iff x hxN
    simpa using this
  · intro x hx
    have hmem := List.mem_of_mem_erase hx
    have hxj : x ≠ j := (hI.js_nodup.mem_erase_iff.mp hx).1
    have h1 := hI.js_started x hmem
    refine ⟨started_app_fin.mpr h1.1, ?_⟩
    rw [finished_app_fin]
    tauto
  · exact fun x hx => hI.js_lt x (List.mem_of_mem_erase hx)
  · intro x hx
    rw [finished_app_fin] at hx
    rcases hx with hx | rfl
    · obtain ⟨h1, h2, h3⟩ := hI.fin_facts x hx
      exact ⟨h1, started_app_fin.mpr h2, h3⟩
    · exact ⟨hjN, started_app_fin.mpr hjStarted, hok⟩
  · intro x hx
    rw [started_app_fin] at hx
    rw [List.count_append, hI.start_count x hx]
    simp [List.count_cons]
  · intro x hx
    rw [finished_app_fin] at hx
    rw [List.count_append]
    rcases hx with hx | rfl
    · have hxj : x ≠ j := fun hc => hjUnfin (hc ▸ hx)
      rw [hI.fin_count x hx]
      simp [List.count_cons, hxj]
    · rw [count_zero_of_not_finished hjUnfin]
      simp [List.count_cons]
  · intro x hx
    rw [started_app_fin] at hx
    exact hI.start_lt x hx
  · intro x y hy hx
    rw [started_app_fin] at hx
    exact sublist_extend (hI.order x y hy hx)
  · intro x hx
    rw [started_app_fin] at hx
    rcases hI.started_fin_js x hx with h1 | h1
    · exact Or.inl (finished_app_fin.mpr (Or.inl h1))
    · by_cases hxj : x = j
      · exact Or.inl (finished_app_fin.mpr (Or.inr hxj))
      · exact Or.inr (hI.js_nodup.mem_erase_iff.mpr ⟨hxj, h1⟩)

/-- Extracting the ready layer (`extract_if` over empty dependency sets)
preserves the invariant, for any iteration order of the layer set. -/
theorem Inv.extractLayer {tasks : List Task} {dep : Nat → Finset Nat}
    {adj : List (Nat × Finset Nat)} {js : List Nat} {tr : List Ev}
    (hI : Inv tasks dep [] adj js tr) {layerP : List Nat}
    (hperm : layerP.Perm ((adj.filter (fun p => decide (p.2 = ∅))).map (fun p => p.1))) :
    Inv tasks dep layerP (adj.filter (fun p => !decide (p.2 = ∅))) js tr := by
  have memLayer : ∀ x ∈ layerP, ∃ q ∈ adj, q.1 = x ∧ q.2 = ∅ := by
    intro x hx
    have := hperm.mem_iff.mp hx
    obtain ⟨q, hq, rfl⟩ := List.mem_map.mp this
    have hq2 := List.mem_filter.mp hq
    exact ⟨q, hq2.1, rfl, by simpa using hq2.2⟩
  have memRest : ∀ p ∈ adj.filter (fun p => !decide (p.2 = ∅)), p ∈ adj ∧ ¬ p.2 = ∅ := by
    intro p hp
    have := List.mem_filter.mp hp
    exact ⟨this.1, by simpa using this.2⟩
  have layerNodup : layerP.Nodup := by
    rw [hperm.nodup_iff]
    rw [List.nodup_map_iff_inj_on]
    · intro p hp q hq heq
      exact fst_inj_of_pairwise hI.adj_sorted p
        (List.mem_filter.mp hp).1 q (List.mem_filter.mp hq).1 heq
    · have adjNodup : adj.Nodup :=
        List.Pairwise.imp (fun h hc => by subst hc; omega) hI.adj_sorted
      exact List.Nodup.sublist (List.filter_sublist _) adjNodup
  refine ⟨?_, ?_, ?_, ?_, ?_, ?_, ?_, ?_, ?_, ?_, ?_, hI.js_started, hI.js_lt,
    hI.fin_facts, hI.start_count, hI.fin_count, hI.start_lt, hI.order,
    hI.started_fin_js⟩
  · exact fun p hp => hI.adj_lt p (memRest p hp).1
  · exact fun p hp => hI.adj_deps p (memRest p hp).1
  · exact hI.adj_sorted.sublist (List.filter_sublist _)
  · intro x hx
    obtain ⟨q, hq, rfl, _⟩ := memLayer x hx
    exact hI.adj_lt q hq
  · intro x hx
    obtain ⟨q, hq, rfl, hq2⟩ := memLayer x hx
    have := hI.adj_deps q hq
    rw [this] at hq2
    exact Finset.sdiff_eq_empty_iff_subset.mp hq2
  · exact layerNodup
  · exact hI.js_nodup
  · exact fun p hp => hI.adj_not_js p (memRest p hp).1
  · intro p hp hc
    obtain ⟨q, hq, hq1, hq2⟩ := memLayer p.1 hc
    have hpq : p = q := fst_inj_of_pairwise hI.adj_sorted p (memRest p hp).1 q hq hq1.symm
    exact (memRest p hp).2 (hpq ▸ hq2)
  · intro x hx
    obtain ⟨q, hq, rfl, _⟩ := memLayer x hx
    exact hI.adj_not_js q hq
  · intro x hxN
    have base := hI.unstarted_iff x hxN
    simp only [List.not_mem_nil, or_false] at base
    rw [← base]
    constructor
    · rintro (hm | hm)
      · obtain ⟨q, hq, rfl⟩ := List.mem_map.mp hm
        exact List.mem_map_of_mem Prod.fst (memRest q hq).1
      · obtain ⟨q, hq, rfl, _⟩ := memLayer x hm
        exact List.mem_map_of_mem Prod.fst hq
    · intro hm
      obtain ⟨q, hq, rfl⟩ := List.mem_map.mp hm
      by_cases hq2 : q.2 = ∅
      · refine Or.inr (hperm.mem_iff.mpr ?_)
        refine List.mem_map_of_mem (fun p : Nat × Finset Nat => p.1) ?_
        refine List.mem_filter.mpr ⟨hq, ?_⟩
        simpa using hq2
      · refine Or.inl ?_
        refine List.mem_map_of_mem Prod.fst ?_
        refine List.mem_filter.mpr ⟨hq, ?_⟩
        simpa using hq2

/-- Full specification of processing one layer: either it completes, keeping
the invariant, or a sync task fails and the run aborts with that task's error,
with every task completed so far having succeeded. -/
theorem processLayer_spec (tasks : List Task) (dep : Nat → Finset Nat) :
    ∀ (pending : List Nat) (adj : List (Nat × Finset Nat)) (js : List Nat)
      (tr : List Ev) (hs : Bool),
      Inv tasks dep pending adj js tr →
      (∃ adj' js' tr₂ hs',
          processLayer tasks pending adj js tr hs = .done adj' js' (tr ++ tr₂) hs' ∧
          Inv tasks dep [] adj' js' (tr ++ tr₂) ∧
          adj'.length = adj.length ∧
          js'.length ≤ js.length + pending.length ∧
          (hs' = true → hs = true ∨ pending ≠ []) ∧
          js.length ≤ js'.length ∧
          (hs = true → hs' = true) ∧
          (pending ≠ [] → hs' = true ∨ js.length < js'.length)) ∨
      (∃ tr₂ e,
          processLayer tasks pending adj js tr hs = .aborted (tr ++ tr₂) e ∧
          TraceFacts tasks dep (tr ++ tr₂) ∧
          ∃ f, f < tasks.length ∧ (taskAt tasks f).result = Except.error e ∧
            started (tr ++ tr₂) f ∧ ¬ finished (tr ++ tr₂) f ∧
            ∀ x, finished (tr ++ tr₂) x → (taskAt tasks x).result = Except.ok ()) := by
  intro pending
  induction pending with
  | nil =>
    intro adj js tr hs hI
    left
    refine ⟨adj, js, [], hs, ?_, ?_, rfl, by simp, fun h => Or.inl h, le_rfl,
      fun h => h, fun h => absurd rfl h⟩
    · simp [processLayer]
    · simpa using hI
  | cons i l ih =>
    intro adj js tr hs hI
    have hiN : i < tasks.length := hI.pend_lt i (List.mem_cons_self _ _)
    have hiUnstarted : ¬ started tr i :=
      (hI.unstarted_iff i hiN).mp (Or.inr (List.mem_cons_self _ _))
    have hiUnfin : ¬ finished tr i := fun h => hiUnstarted (hI.fin_facts i h).2.1
    cases hk : (taskAt tasks i).kind with
    | sync =>
      cases hr : (taskAt tasks i).result with
      | error e =>
        right
        refine ⟨[Ev.start i], e, ?_, ?_, i, hiN, hr, ?_, ?_, ?_⟩
        · simp only [processLayer, hk, hr]
        · exact (Inv.asyncStep hI).traceFacts
        · exact started_app_start.mpr (Or.inr rfl)
        · rw [finished_app_start]; exact hiUnfin
        · intro x hx
          rw [finished_app_start] at hx
          exact (hI.fin_facts x hx).2.2
      | ok u =>
        have hok : (taskAt tasks i).result = Except.ok () := by
          cases u; exact hr
        have hI' := hI.syncStep hok
        have hred : processLayer tasks (i :: l) adj js tr hs
            = processLayer tasks l (adj.map (fun p => (p.1, p.2.erase i))) js
                (tr ++ [Ev.start i, Ev.finish i]) true := by
          simp only [processLayer, hk, hr]
        rcases ih (adj.map (fun p => (p.1, p.2.erase i))) js
            (tr ++ [Ev.start i, Ev.finish i]) true hI' with
          ⟨adj', js', tr₂, hs', heq, hInv, hlen, hjs, _, hjsmono, hsmono, _⟩ |
          ⟨tr₂, e, heq, htf, hff⟩
        · left
          refine ⟨adj', js', [Ev.start i, Ev.finish i] ++ tr₂, hs', ?_, ?_, ?_, ?_, ?_,
            hjsmono, fun _ => hsmono rfl, fun _ => Or.inl (hsmono rfl)⟩
          · rw [hred, heq, List.append_assoc]
          · rw [← List.append_assoc]; exact hInv
          · rw [hlen, List.length_map]
          · simp at hjs ⊢; omega
          · intro _; exact Or.inr (by simp)
        · right
          refine ⟨[Ev.start i, Ev.finish i] ++ tr₂, e, ?_, ?_, ?_⟩
          · rw [hred, heq, List.append_assoc]
          · rw [← List.append_assoc]; exact htf
          · rw [← List.append_assoc]; exact hff
    | async =>
      have hI' := hI.asyncStep
      have hred : processLayer tasks (i :: l) adj js tr hs
          = processLayer tasks l adj (js ++ [i]) (tr ++ [Ev.start i]) hs := by
        simp only [processLayer, hk]
      rcases ih adj (js ++ [i]) (tr ++ [Ev.start i]) hs hI' with
        ⟨adj', js', tr₂, hs', heq, hInv, hlen, hjs, hsy, hjsmono, hsmono, _⟩ |
        ⟨tr₂, e, heq, htf, hff⟩
      · left
        have hjsmono' : js.length < js'.length := by
          simp at hjsmono
          omega
        refine ⟨adj', js', [Ev.start i] ++ tr₂, hs', ?_, ?_, hlen, ?_, ?_,
          Nat.le_of_lt hjsmono', hsmono, fun _ => Or.inr hjsmono'⟩
        · rw [hred, heq, List.append_assoc]
        · rw [← List.append_assoc]; exact hInv
        · simp at hjs ⊢; omega
        · intro h
          rcases hsy h with h1 | _
          · exact Or.inl h1
          · exact Or.inr (by simp)
      · right
        refine ⟨[Ev.start i] ++ tr₂, e, ?_, ?_, ?_⟩
        · rw [hred, heq, List.append_assoc]
        · rw [← List.append_assoc]; exact htf
        · rw [← List.append_assoc]; exact hff

theorem filter_split_length {α : Type} (l : List α) (f : α → Bool) :
    l.length = (l.filter f).length + (l.filter (fun a => !f a)).length := by
  induction l with
  | nil => rfl
  | cons a t iht =>
    cases hfa : f a <;> simp [List.filter_cons, hfa] <;> omega

theorem eq_of_pairwise_lt :
    ∀ {l₁ l₂ : List Nat}, l₁.Pairwise (· < ·) → l₂.Pairwise (· < ·) →
      (∀ x, x ∈ l₁ ↔ x ∈ l₂) → l₁ = l₂ := by
  intro l₁
  induction l₁ with
  | nil =>
    intro l₂ _ _ hmem
    cases l₂ with
    | nil => rfl
    | cons b u => exact absurd ((hmem b).mpr (List.mem_cons_self _ _)) (by simp)
  | cons a t ih =>
    intro l₂ h₁ h₂ hmem
    cases l₂ with
    | nil => exact absurd ((hmem a).mp (List.mem_cons_self _ _)) (by simp)
    | cons b u =>
      have hab : a = b := by
        rcases List.mem_cons.mp ((hmem a).mp (List.mem_cons_self _ _)) with h | h
        · exact h
        · rcases List.mem_cons.mp ((hmem b).mpr (List.mem_cons_self _ _)) with h' | h'
          · exact h'.symm
          · have hba := (List.pairwise_cons.mp h₂).1 a h
            have hab := (List.pairwise_cons.mp h₁).1 b h'
            omega
      subst hab
      have htu : ∀ x, x ∈ t ↔ x ∈ u := by
        intro x
        constructor
        · intro hx
          rcases List.mem_cons.mp ((hmem x).mp (List.mem_cons_of_mem _ hx)) with h | h
          · have := (List.pairwise_cons.mp h₁).1 x hx
            omega
          · exact h
        · intro hx
          rcases List.mem_cons.mp ((hmem x).mpr (List.mem_cons_of_mem _ hx)) with h | h
          · have := (List.pairwise_cons.mp h₂).1 x hx
            omega
          · exact h
      rw [ih (List.pairwise_cons.mp h₁).2 (List.pairwise_cons.mp h₂).2 htu]

theorem mem_unstartedList {n : Nat} {tr : List Ev} {x : Nat} :
    x ∈ unstartedList n tr ↔ x < n ∧ ¬ started tr x := by
  simp [unstartedList]

theorem pairwise_unstartedList (n : Nat) (tr : List Ev) :
    (unstartedList n tr).Pairwise (· < ·) :=
  (List.pairwise_lt_range n).sublist (List.filter_sublist _)

/-- Master theorem about the scheduler loop: with sufficient fuel (strictly
more than twice the remaining tasks plus the outstanding ones — the loop's
termination measure), the loop terminates in a state described by
`GoodOutcome`, and the final trace satisfies `TraceFacts`. -/
theorem loop_spec (tasks : List Task) (dep : Nat → Finset Nat) (o : Nat → Nat) :
    ∀ (fuel k : Nat) (adj : List (Nat × Finset Nat)) (js : List Nat) (tr : List Ev),
      Inv tasks dep [] adj js tr →
      2 * adj.length + js.length < fuel →
      ∃ tr₂ res, loop tasks o fuel k adj js tr = (tr ++ tr₂, res) ∧
        TraceFacts tasks dep (tr ++ tr₂) ∧ GoodOutcome tasks dep res (tr ++ tr₂) := by
  intro fuel
  induction fuel with
  | zero =>
    intro k adj js tr _ hfuel
    omega
  | succ fuel ih =>
    intro k adj js tr hI hfuel
    by_cases hemp : (adj.isEmpty && js.isEmpty) = true
    · refine ⟨[], .ok, by simp [loop, hemp], by simpa using hI.traceFacts, ?_⟩
      obtain ⟨hadj', hjs'⟩ : adj = [] ∧ js = [] := by simpa using hemp
      subst hadj'; subst hjs'
      show ∀ i, i < tasks.length → finished (tr ++ []) i
      simp only [List.append_nil]
      intro i hiN
      have hstarted : started tr i := by
        by_contra hc
        have := (hI.unstarted_iff i hiN).mpr hc
        simp at this
      rcases hI.started_fin_js i hstarted with h | h
      · simpa using h
      · cases h
    · -- at least one of adj, js is nonempty
      have hIex := hI.extractLayer
        (shuffle_perm o k ((adj.filter (fun p => decide (p.2 = ∅))).map (fun p => p.1)))
      have hsplit := filter_split_length adj (fun p => decide (p.2 = ∅))
      have hshuffleLen :
          (shuffle o k ((adj.filter (fun p => decide (p.2 = ∅))).map (fun p => p.1))).length
            = ((adj.filter (fun p => decide (p.2 = ∅))).map (fun p => p.1)).length :=
        (shuffle_perm o k _).length_eq
      rcases processLayer_spec tasks dep _ _ _ _ false hIex with
        ⟨adj', js', tr₂, hs', heqP, hInv, hlenAdj, hjsLen, hsy, hjsmono, _, hpend⟩ |
        ⟨tr₂, e, heqP, htf, f, hfN, hfr, hfs, hff, hfin⟩
      · -- layer processed completely
        by_cases hhs : hs' = true
        · -- some sync task ran: continue immediately
          have hlayerNe :
              (shuffle o k ((adj.filter (fun p => decide (p.2 = ∅))).map (fun p => p.1))) ≠ [] := by
            rcases hsy hhs with h | h
            · cases h
            · exact h
          have hlayerPos :
              0 < ((adj.filter (fun p => decide (p.2 = ∅))).map (fun p => p.1)).length := by
            rw [← hshuffleLen]
            exact List.length_pos.mpr hlayerNe
          have hmeas : 2 * adj'.length + js'.length < fuel := by
            rw [hlenAdj]
            rw [hshuffleLen] at hjsLen
            simp only [List.length_map] at hjsLen hlayerPos hsplit ⊢
            omega
          obtain ⟨tr₃, res, heqL, htf, hgo⟩ :=
            ih (k + ((adj.filter (fun p => decide (p.2 = ∅))).map (fun p => p.1)).length + 1)
              adj' js' (tr ++ tr₂) hInv hmeas
          refine ⟨tr₂ ++ tr₃, res, ?_, ?_, ?_⟩
          · have : loop tasks o (fuel + 1) k adj js tr
                = loop tasks o fuel
                    (k + ((adj.filter (fun p => decide (p.2 = ∅))).map (fun p => p.1)).length + 1)
                    adj' js' (tr ++ tr₂) := by
              simp only [loop, hemp, Bool.false_eq_true, if_false, heqP, hhs, if_true]
            rw [this, heqL, List.append_assoc]
          · rw [← List.append_assoc]; exact htf
          · rw [← List.append_assoc]; exact hgo
        · -- no sync task ran this iteration
          by_cases hjse : js'.isEmpty = true
          · -- circular dependency
            have hjs'nil : js' = [] := by simpa using hjse
            have hjsnil : js = [] := by
              rw [hjs'nil] at hjsmono
              simpa using List.length_eq_zero.mp (Nat.le_zero.mp hjsmono)
            have hpendnil :
                (shuffle o k ((adj.filter (fun p => decide (p.2 = ∅))).map (fun p => p.1))) = [] := by
              by_contra hc
              rcases hpend hc with h | h
              · exact hhs h
              · rw [hjs'nil] at h; simp at h
            -- with an empty pending layer processLayer is the identity
            have heqid : processLayer tasks
                (shuffle o k ((adj.filter (fun p => decide (p.2 = ∅))).map (fun p => p.1)))
                (adj.filter (fun p => !decide (p.2 = ∅))) js tr false
                = .done (adj.filter (fun p => !decide (p.2 = ∅))) js tr false := by
              rw [hpendnil]; simp [processLayer]
            have hinj := heqP
            rw [heqid] at hinj
            injection hinj with h1 h2 h3 h4
            have htr₂ : tr₂ = [] := by
              have := h3.symm
              simpa using this
            subst htr₂
            have hadj' : adj' = adj.filter (fun p => !decide (p.2 = ∅)) := h1.symm
            have hlen0 :
                ((adj.filter (fun p => decide (p.2 = ∅))).map (fun p => p.1)).length = 0 := by
              rw [← hshuffleLen, hpendnil]
              rfl
            have hlayernil : (adj.filter (fun p => decide (p.2 = ∅))) = [] := by
              rw [List.length_map] at hlen0
              exact List.length_eq_zero.mp hlen0
            have hadjne : adj ≠ [] := by
              intro hc
              subst hjsnil
              rw [hc] at hemp
              simp at hemp
            have hrestne : adj' ≠ [] := by
              rw [hadj']
              intro hc
              apply hadjne
              apply List.length_eq_zero.mp
              rw [hsplit, hc, hlayernil]
              rfl
            refine ⟨[], .error (.Circular (adj'.map (fun p => (taskAt tasks p.1).symbol))),
              ?_, ?_, ?_⟩
            · simp only [loop, hemp, Bool.false_eq_true, if_false, heqP, hhs, hjs'nil]
              simp
            · simpa using hInv.traceFacts
            · -- the Circular outcome facts
              have hmemiff : ∀ x, x ∈ adj'.map Prod.fst ↔ x ∈ unstartedList tasks.length (tr ++ []) := by
                intro x
                rw [mem_unstartedList]
                constructor
                · intro hx
                  refine ⟨?_, ?_⟩
                  · obtain ⟨q, hq, rfl⟩ := List.mem_map.mp hx
                    exact hInv.adj_lt q hq
                  · intro hc
                    have := (hInv.unstarted_iff x ?_).mp (Or.inl hx)
                    · exact this hc
                    · obtain ⟨q, hq, rfl⟩ := List.mem_map.mp hx
                      exact hInv.adj_lt q hq
                · rintro ⟨hxN, hxU⟩
                  rcases (hInv.unstarted_iff x hxN).mpr hxU with h | h
                  · exact h
                  · cases h
              have hfsteq : adj'.map Prod.fst = unstartedList tasks.length (tr ++ []) := by
                apply eq_of_pairwise_lt
                · rw [List.pairwise_map]
                  exact hInv.adj_sorted
                · exact pairwise_unstartedList _ _
                · exact hmemiff
              refine ⟨?_, ?_, ?_, ?_⟩
              · rw [← hfsteq, List.map_map]
                rfl
              · rw [← hfsteq]
                intro hc
                exact hrestne (List.map_eq_nil_iff.mp hc)
              · intro i hi
                rw [← hfsteq] at hi
                obtain ⟨q, hq, rfl⟩ := List.mem_map.mp hi
                have hdeps := hInv.adj_deps q hq
                rw [Finset.nonempty_iff_ne_empty, ← hdeps]
                rw [hadj'] at hq
                have := (List.mem_filter.mp hq).2
                simpa using this
              · intro i hi
                rcases hInv.started_fin_js i hi with h | h
                · exact h
                · rw [hjs'nil] at h; cases h
          · -- wait for one async completion
            have hjs'ne : js' ≠ [] := by
              intro hc
              rw [hc] at hjse
              simp at hjse
            have hidx : o (k + ((adj.filter (fun p => decide (p.2 = ∅))).map (fun p => p.1)).length)
                % js'.length < js'.length :=
              Nat.mod_lt _ (List.length_pos.mpr hjs'ne)
            have hjmem : js'.getD
                (o (k + ((adj.filter (fun p => decide (p.2 = ∅))).map (fun p => p.1)).length)
                  % js'.length) 0 ∈ js' := by
              rw [List.getD_eq_getElem _ _ hidx]
              exact List.getElem_mem hidx
            cases hr : (taskAt tasks (js'.getD
                (o (k + ((adj.filter (fun p => decide (p.2 = ∅))).map (fun p => p.1)).length)
                  % js'.length) 0)).result with
            | error e =>
              refine ⟨tr₂, .error (.Execution e), ?_, ?_, ?_⟩
              · simp only [loop, hemp, Bool.false_eq_true, if_false, heqP, hhs, hjse, hr]
              · exact hInv.traceFacts
              · refine ⟨⟨_, hInv.js_lt _ hjmem, hr, (hInv.js_started _ hjmem).1,
                  (hInv.js_started _ hjmem).2⟩, ?_⟩
                intro x hx
                exact (hInv.fin_facts x hx).2.2
            | ok u =>
              have hok : (taskAt tasks (js'.getD
                  (o (k + ((adj.filter (fun p => decide (p.2 = ∅))).map (fun p => p.1)).length)
                    % js'.length) 0)).result = Except.ok () := by
                cases u; exact hr
              have hI'' := hInv.pickStep hjmem hok
              have hmeas : 2 * (adj'.map (fun p =>
                  (p.1, p.2.erase (js'.getD
                    (o (k + ((adj.filter (fun p => decide (p.2 = ∅))).map (fun p => p.1)).length)
                      % js'.length) 0)))).length
                  + (js'.erase (js'.getD
                    (o (k + ((adj.filter (fun p => decide (p.2 = ∅))).map (fun p => p.1)).length)
                      % js'.length) 0)).length < fuel := by
                rw [List.length_map, hlenAdj, List.length_erase_of_mem hjmem]
                rw [hshuffleLen] at hjsLen
                simp only [List.length_map] at hjsLen hsplit ⊢
                have hjs'pos : 0 < js'.length := List.length_pos.mpr hjs'ne
                omega
              obtain ⟨tr₃, res, heqL, htf3, hgo3⟩ :=
                ih (k + ((adj.filter (fun p => decide (p.2 = ∅))).map (fun p => p.1)).length + 1)
                  _ _ _ hI'' hmeas
              refine ⟨tr₂ ++ ([Ev.finish (js'.getD
                  (o (k + ((adj.filter (fun p => decide (p.2 = ∅))).map (fun p => p.1)).length)
                    % js'.length) 0)] ++ tr₃), res, ?_, ?_, ?_⟩
              · have : loop tasks o (fuel + 1) k adj js tr
                    = loop tasks o fuel
                      (k + ((adj.filter (fun p => decide (p.2 = ∅))).map (fun p => p.1)).length + 1)
                      (adj'.map (fun p =>
                        (p.1, p.2.erase (js'.getD
                          (o (k + ((adj.filter (fun p => decide (p.2 = ∅))).map (fun p => p.1)).length)
                            % js'.length) 0))))
                      (js'.erase (js'.getD
                        (o (k + ((adj.filter (fun p => decide (p.2 = ∅))).map (fun p => p.1)).length)
                          % js'.length) 0))
                      ((tr ++ tr₂) ++ [Ev.finish (js'.getD
                        (o (k + ((adj.filter (fun p => decide (p.2 = ∅))).map (fun p => p.1)).length)
                          % js'.length) 0)]) := by
                  simp only [loop, hemp, Bool.false_eq_true, if_false, heqP, hhs, hjse, hr]
                rw [this, heqL]
                simp [List.append_assoc]
              · have heqtr : ((tr ++ tr₂) ++ [Ev.finish (js'.getD
                    (o (k + ((adj.filter (fun p => decide (p.2 = ∅))).map (fun p => p.1)).length)
                      % js'.length) 0)]) ++ tr₃
                    = tr ++ (tr₂ ++ ([Ev.finish (js'.getD
                    (o (k + ((adj.filter (fun p => decide (p.2 = ∅))).map (fun p => p.1)).length)
                      % js'.length) 0)] ++ tr₃)) := by
                  simp
                rw [← heqtr]
                exact htf3
              · have heqtr : ((tr ++ tr₂) ++ [Ev.finish (js'.getD
                    (o (k + ((adj.filter (fun p => decide (p.2 = ∅))).map (fun p => p.1)).length)
                      % js'.length) 0)]) ++ tr₃
                    = tr ++ (tr₂ ++ ([Ev.finish (js'.getD
                    (o (k + ((adj.filter (fun p => decide (p.2 = ∅))).map (fun p => p.1)).length)
                      % js'.length) 0)] ++ tr₃)) := by
                  simp
                rw [← heqtr]
                exact hgo3
      · -- a sync task failed during the layer
        refine ⟨tr₂, .error (.Execution e), ?_, htf, ⟨⟨f, hfN, hfr, hfs, hff⟩, hfin⟩⟩
        simp only [loop, hemp, Bool.false_eq_true, if_false, heqP]

theorem finSet_nil (n : Nat) : finSet n [] = ∅ := by
  ext x
  simp [finSet, finished]

/-- The invariant holds at the start of the loop, with the freshly built
adjacency lists, no outstanding work and an empty trace. -/
theorem Inv.initial (tasks : List Task) (m : List (Symbol × Nat)) :
    Inv tasks (depFunOf m tasks) [] (buildAdjacent m tasks) [] [] := by
  have hfst : (buildAdjacent m tasks).map Prod.fst = List.range tasks.length := by
    unfold buildAdjacent
    rw [List.map_map]
    exact List.map_id _
  refine ⟨?_, ?_, ?_, ?_, ?_, ?_, ?_, ?_, ?_, ?_, ?_, ?_, ?_, ?_, ?_, ?_, ?_, ?_, ?_⟩
  · intro p hp
    obtain ⟨i, hi, rfl⟩ := List.mem_map.mp hp
    simpa using List.mem_range.mp hi
  · intro p hp
    obtain ⟨i, hi, rfl⟩ := List.mem_map.mp hp
    show resolveDeps m (taskAt tasks i).deps = depFunOf m tasks i \ finSet tasks.length []
    rw [finSet_nil, Finset.sdiff_empty]
    rfl
  · unfold buildAdjacent
    rw [List.pairwise_map]
    exact List.pairwise_lt_range _
  · intro i hi; cases hi
  · intro i hi; cases hi
  · exact List.nodup_nil
  · exact List.nodup_nil
  · intro p _ hc; cases hc
  · intro p _ hc; cases hc
  · intro i hi; cases hi
  · intro i hiN
    rw [hfst]
    constructor
    · intro _ hc
      simp [started] at hc
    · intro _
      exact Or.inl (List.mem_range.mpr hiN)
  · intro i hi; cases hi
  · intro i hi; cases hi
  · intro i hi
    simp [finished] at hi
  · intro i hi
    simp [started] at hi
  · intro i hi
    simp [finished] at hi
  · intro i hi
    simp [started] at hi
  · intro i j _ hi
    simp [started] at hi
  · intro i hi
    simp [started] at hi

/-- Every run of `init_static` past a successful symbol-map build terminates
in a trace satisfying `TraceFacts` and a result satisfying `GoodOutcome`. -/
theorem initStatic_run (tasks : List Task) (opts : InitOptionsInner) (o : Nat → Nat)
    (m : List (Symbol × Nat))
    (hm : buildSymbolMap (tasks.map Task.symbol) 0 [] = .ok m) :
    ∃ tr res, initStaticFrom (some opts) tasks o = .returned tr res ∧
      TraceFacts tasks (depFunOf m tasks) tr ∧
      GoodOutcome tasks (depFunOf m tasks) res tr := by
  have hlen : (buildAdjacent m tasks).length = tasks.length := by
    unfold buildAdjacent
    rw [List.length_map, List.length_range]
  have hfuel : 2 * (buildAdjacent m tasks).length + ([] : List Nat).length
      < 2 * tasks.length + 1 := by
    rw [hlen]
    simp
  obtain ⟨tr₂, res, heq, htf, hgo⟩ :=
    loop_spec tasks (depFunOf m tasks) o (2 * tasks.length + 1) 0
      (buildAdjacent m tasks) [] [] (Inv.initial tasks m) hfuel
  refine ⟨tr₂, res, ?_, by simpa using htf, by simpa using hgo⟩
  simp [initStaticFrom, hm, heq]

/-- A duplicate registered symbol makes `init_static` fail with `Ambiguous`
before anything runs, carrying a symbol that is registered at least twice. -/
theorem ambiguous_of_dup (opts : InitOptionsInner) (tasks : List Task) (o : Nat → Nat)
    (hdup : ¬ (tasks.map Task.symbol).Nodup) :
    ∃ s, initStaticFrom (some opts) tasks o = .returned [] (.error (.Ambiguous s)) ∧
      2 ≤ (tasks.map Task.symbol).count s := by
  cases hbsm : buildSymbolMap (tasks.map Task.symbol) 0 [] with
  | ok m =>
    exact absurd (bsm_ok_nodup _ 0 [] m hbsm).1 hdup
  | error e =>
    obtain ⟨s, rfl, hcase⟩ := bsm_error _ 0 [] e hbsm
    refine ⟨s, ?_, ?_⟩
    · simp [initStaticFrom, hbsm]
    · rcases hcase with ⟨hsome, _⟩ | h
      · simp at hsome
      · exact h

/-- No transitive dependent of a task that never completed can have started. -/
theorem not_started_of_dependsOn {tasks : List Task} {dep : Nat → Finset Nat}
    {tr : List Ev} (htf : TraceFacts tasks dep tr) :
    ∀ i f, DependsOn dep i f → ¬ finished tr f → ¬ started tr i := by
  intro i f hdep
  induction hdep with
  | direct hj =>
    intro hff hs
    have hsub := htf.2.2 _ _ hj hs
    exact hff (hsub.subset (List.mem_cons_self _ _))
  | step hj _ ihrec =>
    intro hff hs
    have hsub := htf.2.2 _ _ hj hs
    have hfinj : finished tr _ := hsub.subset (List.mem_cons_self _ _)
    exact ihrec hff (htf.2.1 _ hfinj).1

/-- The scheduler only reads a task's `kind`, `result` and `symbol`; two task
lists agreeing on those projections drive the layer processing identically. -/
theorem processLayer_congr (tasks₁ tasks₂ : List Task)
    (hproj : ∀ i, (taskAt tasks₁ i).kind = (taskAt tasks₂ i).kind ∧
      (taskAt tasks₁ i).result = (taskAt tasks₂ i).result ∧
      (taskAt tasks₁ i).symbol = (taskAt tasks₂ i).symbol) :
    ∀ (pending : List Nat) (adj : List (Nat × Finset Nat)) (js : List Nat)
      (tr : List Ev) (hs : Bool),
      processLayer tasks₁ pending adj js tr hs = processLayer tasks₂ pending adj js tr hs := by
  intro pending
  induction pending with
  | nil => intro adj js tr hs; rfl
  | cons i l ih =>
    intro adj js tr hs
    rw [processLayer, processLayer, ← (hproj i).1, ← (hproj i).2.1]
    cases (taskAt tasks₁ i).kind with
    | sync =>
      cases (taskAt tasks₁ i).result with
      | error e => rfl
      | ok u => exact ih _ _ _ _
    | async => exact ih _ _ _ _

/-- The scheduler loop likewise only reads `kind`, `result` and `symbol`. -/
theorem loop_congr (tasks₁ tasks₂ : List Task) (o : Nat → Nat)
    (hproj : ∀ i, (taskAt tasks₁ i).kind = (taskAt tasks₂ i).kind ∧
      (taskAt tasks₁ i).result = (taskAt tasks₂ i).result ∧
      (taskAt tasks₁ i).symbol = (taskAt tasks₂ i).symbol) :
    ∀ (fuel k : Nat) (adj : List (Nat × Finset Nat)) (js : List Nat) (tr : List Ev),
      loop tasks₁ o fuel k adj js tr = loop tasks₂ o fuel k adj js tr := by
  intro fuel
  induction fuel with
  | zero => intro k adj js tr; rfl
  | succ fuel ih =>
    intro k adj js tr
    simp only [loop]
    by_cases hemp : (adj.isEmpty && js.isEmpty) = true
    · rw [if_pos hemp, if_pos hemp]
    · rw [if_neg hemp, if_neg hemp]
      rw [← processLayer_congr tasks₁ tasks₂ hproj]
      cases processLayer tasks₁
          (shuffle o k ((adj.filter (fun p => decide (p.2 = ∅))).map (fun p => p.1)))
          (adj.filter (fun p => !decide (p.2 = ∅))) js tr false with
      | aborted tr' e => rfl
      | done rest' js' tr' hasSync =>
        cases hasSync with
        | true => exact ih _ _ _ _
        | false =>
          dsimp only
          simp only [Bool.false_eq_true, if_false]
          by_cases hjse : js'.isEmpty = true
          · rw [if_pos hjse, if_pos hjse]
            have : rest'.map (fun p => (taskAt tasks₁ p.1).symbol)
                = rest'.map (fun p => (taskAt tasks₂ p.1).symbol) :=
              List.map_congr_left (fun p _ => (hproj p.1).2.2)
            rw [this]
          · rw [if_neg hjse, if_neg hjse,
              ← (hproj (js'.getD
                (o (k + ((adj.filter (fun p => decide (p.2 = ∅))).map (fun p => p.1)).length)
                  % js'.length) 0)).2.1]
            cases (taskAt tasks₁ (js'.getD
                (o (k + ((adj.filter (fun p => decide (p.2 = ∅))).map (fun p => p.1)).length)
                  % js'.length) 0)).result with
            | error e => rfl
            | ok u => exact ih _ _ _ _

theorem taskAt_eq_getElem? (l : List Task) (i : Nat) :
    taskAt l i = l[i]?.getD defaultTask := by
  unfold taskAt
  rw [List.getD_eq_getD_get?, List.get?_eq_getElem?]

theorem addExternalDep_getElem? (tasks : List Task) (j : Nat) (s : Symbol) (i : Nat) :
    (addExternalDep tasks j s)[i]?
      = if j = i
        then Function.const Task
          { taskAt tasks j with deps := (taskAt tasks j).deps ++ [some s] } <$> tasks[i]?
        else tasks[i]? := by
  unfold addExternalDep
  exact List.getElem?_set'

theorem addExternalDep_proj (tasks : List Task) (j : Nat) (s : Symbol) :
    ∀ i, (taskAt (addExternalDep tasks j s) i).kind = (taskAt tasks i).kind ∧
      (taskAt (addExternalDep tasks j s) i).result = (taskAt tasks i).result ∧
      (taskAt (addExternalDep tasks j s) i).symbol = (taskAt tasks i).symbol := by
  intro i
  rw [taskAt_eq_getElem?, taskAt_eq_getElem?, addExternalDep_getElem?]
  by_cases hji : j = i
  · subst hji
    rw [if_pos rfl]
    cases hg : tasks[j]? with
    | none => exact ⟨rfl, rfl, rfl⟩
    | some t₀ =>
      have ht : taskAt tasks j = t₀ := by
        rw [taskAt_eq_getElem?, hg]
        rfl
      simp [ht]
  · rw [if_neg hji]
    exact ⟨rfl, rfl, rfl⟩

theorem addExternalDep_symbols (tasks : List Task) (j : Nat) (s : Symbol) :
    (addExternalDep tasks j s).map Task.symbol = tasks.map Task.symbol := by
  apply List.ext_getElem?
  intro n
  rw [List.getElem?_map, List.getElem?_map, addExternalDep_getElem?]
  by_cases hjn : j = n
  · subst hjn
    rw [if_pos rfl]
    cases hg : tasks[j]? with
    | none => rfl
    | some t₀ =>
      have ht : taskAt tasks j = t₀ := by
        rw [taskAt_eq_getElem?, hg]
        rfl
      simp [ht]
  · rw [if_neg hjn]

theorem addExternalDep_length (tasks : List Task) (j : Nat) (s : Symbol) :
    (addExternalDep tasks j s).length = tasks.length := by
  unfold addExternalDep
  exact List.length_set _ _ _

theorem resolveDeps_append_none (m : List (Symbol × Nat)) (deps : List (Option Symbol))
    (s : Symbol) (hnone : smLookup m s = none) :
    resolveDeps m (deps ++ [some s]) = resolveDeps m deps := by
  unfold resolveDeps
  rw [List.filterMap_append]
  have : List.filterMap (fun os => os.bind (smLookup m)) [some s] = [] := by
    simp [hnone]
  rw [this, List.append_nil]

theorem addExternalDep_buildAdjacent (tasks : List Task) (j : Nat) (s : Symbol)
    (m : List (Symbol × Nat)) (hnone : smLookup m s = none) :
    buildAdjacent m (addExternalDep tasks j s) = buildAdjacent m tasks := by
  unfold buildAdjacent
  rw [addExternalDep_length]
  apply List.map_congr_left
  intro i _
  by_cases hji : j = i
  · subst hji
    rw [taskAt_eq_getElem?, addExternalDep_getElem?, if_pos rfl]
    cases hg : tasks[j]? with
    | none =>
      rw [taskAt_eq_getElem?, hg]
      rfl
    | some t₀ =>
      have ht : taskAt tasks j = t₀ := by
        rw [taskAt_eq_getElem?, hg]
        rfl
      rw [ht]
      show (j, resolveDeps m (t₀.deps ++ [some s])) = (j, resolveDeps m t₀.deps)
      rw [resolveDeps_append_none m t₀.deps s hnone]
  · have : taskAt (addExternalDep tasks j s) i = taskAt tasks i := by
      rw [taskAt_eq_getElem?, taskAt_eq_getElem?, addExternalDep_getElem?, if_neg hji]
    rw [this]

/-! ### The claims -/

/-- C2: whenever the scheduler reaches a state with unfinished tasks but no
ready task and no outstanding suspending task, `init_static` returns the
`Circular` error naming exactly the tasks still unresolved — every task
without a start event, in declaration order, which may be more than a minimal
cycle — and none of those tasks' actions has been executed (each has zero
start events); every other registered task has completed. -/
theorem claim_c2 (opts : InitOptionsInner) (tasks : List Task) (o : Nat → Nat)
    (tr : List Ev) (syms : List Symbol)
    (h : initStaticFrom (some opts) tasks o = .returned tr (.error (.Circular syms))) :
    syms = (unstartedList tasks.length tr).map (fun i => (taskAt tasks i).symbol) ∧
    syms ≠ [] ∧
    (∀ i ∈ unstartedList tasks.length tr, tr.count (Ev.start i) = 0) ∧
    (∀ i, i < tasks.length → i ∉ unstartedList tasks.length tr → finished tr i) := by
  cases hbsm : buildSymbolMap (tasks.map Task.symbol) 0 [] with
  | error e =>
    obtain ⟨s, rfl, _⟩ := bsm_error _ 0 [] e hbsm
    have h2 : Entry.returned [] (RunResult.error (.Ambiguous s))
        = Entry.returned tr (.error (.Circular syms)) := by
      rw [← h]
      simp [initStaticFrom, hbsm]
    injection h2 with h3 h4
    injection h4 with h5
    cases h5
  | ok m =>
    obtain ⟨tr', res', heq, htf, hgo⟩ := initStatic_run tasks opts o m hbsm
    rw [h] at heq
    injection heq with h3 h4
    subst h3
    rw [← h4] at hgo
    obtain ⟨h1, h2, _, h4'⟩ := hgo
    refine ⟨h1, ?_, ?_, ?_⟩
    · rw [h1]
      intro hc
      exact h2 (List.map_eq_nil_iff.mp hc)
    · intro i hi
      exact count_zero_of_not_started (mem_unstartedList.mp hi).2
    · intro i hiN hni
      have : started tr i := by
        by_contra hc
        exact hni (mem_unstartedList.mpr ⟨hiN, hc⟩)
      exact h4' i this

/-- C2 witness: the 2-cycle `FOO requires BAR`, `BAR requires FOO` yields
`Circular` naming both, with an empty trace. -/
theorem claim_c2_witness :
    initStaticFrom (some optsDefault) [tXc, tYc] (fun _ => 0)
      = .returned [] (.error (.Circular [symX, symY])) ∧
    ([symX, symY]
        = (unstartedList ([tXc, tYc] : List Task).length []).map
            (fun i => (taskAt [tXc, tYc] i).symbol) ∧
      [symX, symY] ≠ [] ∧
      (∀ i ∈ unstartedList ([tXc, tYc] : List Task).length [],
        ([] : List Ev).count (Ev.start i) = 0) ∧
      (∀ i, i < ([tXc, tYc] : List Task).length →
        i ∉ unstartedList ([tXc, tYc] : List Task).length [] → finished [] i)) :=
  ⟨by decide, claim_c2 optsDefault [tXc, tYc] (fun _ => 0) [] [symX, symY] (by decide)⟩

/-- C3: whenever two or more registered tasks provide the same `Symbol`,
`init_static` fails with the `Ambiguous` error (for any registration order,
since the task list is universally quantified) carrying a symbol registered at
least twice — the shared identity of all contending tasks — and the trace is
empty: no task's action has executed. -/
theorem claim_c3 (opts : InitOptionsInner) (tasks : List Task) (o : Nat → Nat)
    (hdup : ¬ (tasks.map Task.symbol).Nodup) :
    ∃ s, initStaticFrom (some opts) tasks o = .returned [] (.error (.Ambiguous s)) ∧
      2 ≤ (tasks.map Task.symbol).count s :=
  ambiguous_of_dup opts tasks o hdup

/-- C3 witness: two tasks providing the same symbol `P1`. -/
theorem claim_c3_witness :
    ¬ (([tDup1, tDup2] : List Task).map Task.symbol).Nodup ∧
    (∃ s, initStaticFrom (some optsDefault) [tDup1, tDup2] (fun _ => 0)
        = .returned [] (.error (.Ambiguous s)) ∧
      2 ≤ (([tDup1, tDup2] : List Task).map Task.symbol).count s) :=
  ⟨by decide, claim_c3 optsDefault [tDup1, tDup2] (fun _ => 0) (by decide)⟩

/-- C4: whenever a run surfaces `Execution e`, the error is the one produced
by the first failing action: the failing task `f` started but never finished,
every task that completed did so successfully, and no task that depends
directly or transitively on `f` ever started. -/
theorem claim_c4 (opts : InitOptionsInner) (tasks : List Task) (o : Nat → Nat)
    (m : List (Symbol × Nat)) (tr : List Ev) (e : String)
    (hm : buildSymbolMap (tasks.map Task.symbol) 0 [] = .ok m)
    (h : initStaticFrom (some opts) tasks o = .returned tr (.error (.Execution e))) :
    ∃ f, f < tasks.length ∧ (taskAt tasks f).result = Except.error e ∧
      started tr f ∧ ¬ finished tr f ∧
      (∀ x, finished tr x → (taskAt tasks x).result = Except.ok ()) ∧
      (∀ i, DependsOn (depFunOf m tasks) i f → ¬ started tr i) := by
  obtain ⟨tr', res', heq, htf, hgo⟩ := initStatic_run tasks opts o m hm
  rw [h] at heq
  injection heq with h3 h4
  subst h3
  rw [← h4] at hgo
  obtain ⟨⟨f, hfN, hfr, hfs, hff⟩, hfin⟩ := hgo
  exact ⟨f, hfN, hfr, hfs, hff,
    hfin, fun i hd => not_started_of_dependsOn htf i f hd hff⟩

/-- C4 witness: `FOO` succeeds, `BAR` fails with `boom`, `BAZ` requires `BAR`;
the run aborts with `boom` and `BAZ` never starts. -/
theorem claim_c4_witness :
    buildSymbolMap (([tA, tFailB, tAfterB] : List Task).map Task.symbol) 0 []
      = .ok [(symC, 2), (symB, 1), (symA, 0)] ∧
    initStaticFrom (some optsDefault) [tA, tFailB, tAfterB] (fun _ => 0)
      = .returned [Ev.start 0, Ev.finish 0, Ev.start 1] (.error (.Execution "boom")) ∧
    (∃ f, f < ([tA, tFailB, tAfterB] : List Task).length ∧
      (taskAt [tA, tFailB, tAfterB] f).result = Except.error "boom" ∧
      started [Ev.start 0, Ev.finish 0, Ev.start 1] f ∧
      ¬ finished [Ev.start 0, Ev.finish 0, Ev.start 1] f ∧
      (∀ x, finished [Ev.start 0, Ev.finish 0, Ev.start 1] x →
        (taskAt [tA, tFailB, tAfterB] x).result = Except.ok ()) ∧
      (∀ i, DependsOn (depFunOf [(symC, 2), (symB, 1), (symA, 0)] [tA, tFailB, tAfterB]) i f →
        ¬ started [Ev.start 0, Ev.finish 0, Ev.start 1] i)) :=
  ⟨rfl, by decide,
    claim_c4 optsDefault [tA, tFailB, tAfterB] (fun _ => 0)
      [(symC, 2), (symB, 1), (symA, 0)] [Ev.start 0, Ev.finish 0, Ev.start 1] "boom"
      rfl (by decide)⟩

/-- C1 counterexample: a one-task set that is unambiguous (distinct symbols)
and acyclic (a rank function exists), yet `init_static` does not return
success, because the task's action fails — the claim as stated omits the
assumption that every action succeeds. -/
theorem claim_c1_counterexample :
    (([tFail] : List Task).map Task.symbol).Nodup ∧
    buildSymbolMap (([tFail] : List Task).map Task.symbol) 0 [] = .ok [(symFail, 0)] ∧
    (∃ rank : Nat → Nat, ∀ i, i < ([tFail] : List Task).length →
      ∀ j ∈ depFunOf [(symFail, 0)] [tFail] i, rank j < rank i) ∧
    initStaticFrom (some optsDefault) [tFail] (fun _ => 0)
      = .returned [Ev.start 0] (.error (.Execution "invalid digit found in string")) ∧
    (RunResult.error (.Execution "invalid digit found in string") ≠ RunResult.ok) :=
  ⟨by decide, rfl, ⟨fun _ => 0, by decide⟩, by decide, by decide⟩

/-- C1 (amended): for every acyclic, unambiguous set of registered tasks all
of whose actions succeed, `init_static` returns success, every registered
task's action is executed exactly once (one start and one finish event), and
for every dependency edge A→B, A's completion event precedes B's start event
in the trace. -/
theorem claim_c1 (tasks : List Task) (opts : InitOptionsInner) (o : Nat → Nat)
    (m : List (Symbol × Nat))
    (hm : buildSymbolMap (tasks.map Task.symbol) 0 [] = .ok m)
    (hacyc : ∃ rank : Nat → Nat, ∀ i, i < tasks.length →
      ∀ j ∈ depFunOf m tasks i, rank j < rank i)
    (hok : ∀ i, i < tasks.length → (taskAt tasks i).result = Except.ok ()) :
    ∃ tr, initStaticFrom (some opts) tasks o = .returned tr .ok ∧
      (∀ i, i < tasks.length → tr.count (Ev.start i) = 1 ∧ tr.count (Ev.finish i) = 1) ∧
      (∀ i j, i < tasks.length → j ∈ depFunOf m tasks i →
        List.Sublist [Ev.finish j, Ev.start i] tr) := by
  obtain ⟨tr, res, heq, htf, hgo⟩ := initStatic_run tasks opts o m hm
  have hdepBound : ∀ i j, j ∈ depFunOf m tasks i → j < tasks.length := by
    intro i j hj
    have := resolveDeps_lt (tasks.map Task.symbol) m hm (taskAt tasks i).deps j hj
    rwa [List.length_map] at this
  cases res with
  | stuck => cases hgo
  | error err =>
    cases err with
    | Ambiguous s => cases hgo
    | Execution e =>
      obtain ⟨⟨f, hfN, hfr, _, _⟩, _⟩ := hgo
      rw [hok f hfN] at hfr
      cases hfr
    | Circular syms =>
      exfalso
      obtain ⟨_, hne, hdeps, hstfin⟩ := hgo
      obtain ⟨rank, hrank⟩ := hacyc
      have hUne : ((unstartedList tasks.length tr).toFinset).Nonempty := by
        obtain ⟨x, hx⟩ := List.exists_mem_of_ne_nil _ hne
        exact ⟨x, List.mem_toFinset.mpr hx⟩
      obtain ⟨u, huU, hmin⟩ :=
        Finset.exists_min_image ((unstartedList tasks.length tr).toFinset) rank hUne
      have huL := List.mem_toFinset.mp huU
      obtain ⟨huN, huUn⟩ := mem_unstartedList.mp huL
      obtain ⟨j, hj⟩ := hdeps u huL
      rw [Finset.mem_sdiff] at hj
      obtain ⟨hjdep, hjfin⟩ := hj
      have hjN : j < tasks.length := hdepBound u j hjdep
      have hjUnfin : ¬ finished tr j := by
        intro hc
        exact hjfin (mem_finSet.mpr ⟨hjN, hc⟩)
      have hjUnst : ¬ started tr j := fun hc => hjUnfin (hstfin j hc)
      have hjU : j ∈ (unstartedList tasks.length tr).toFinset :=
        List.mem_toFinset.mpr (mem_unstartedList.mpr ⟨hjN, hjUnst⟩)
      have h1 := hmin j hjU
      have h2 := hrank u huN j hjdep
      omega
  | ok =>
    refine ⟨tr, heq, ?_, ?_⟩
    · intro i hiN
      have hfin := hgo i hiN
      obtain ⟨hst, hcfin, _⟩ := htf.2.1 i hfin
      exact ⟨(htf.1 i hst).2, hcfin⟩
    · intro i j hiN hj
      have hfin := hgo i hiN
      exact htf.2.2 i j hj (htf.2.1 i hfin).1

/-- C1 witness: the two-task chain `FOO`, `BAR requires FOO`, both succeeding,
runs to completion with the dependency order respected. -/
theorem claim_c1_witness :
    buildSymbolMap (([tA, tB] : List Task).map Task.symbol) 0 []
      = .ok [(symB, 1), (symA, 0)] ∧
    (∃ rank : Nat → Nat, ∀ i, i < ([tA, tB] : List Task).length →
      ∀ j ∈ depFunOf [(symB, 1), (symA, 0)] [tA, tB] i, rank j < rank i) ∧
    (∀ i, i < ([tA, tB] : List Task).length →
      (taskAt [tA, tB] i).result = Except.ok ()) ∧
    (∃ tr, initStaticFrom (some optsDefault) [tA, tB] (fun _ => 0) = .returned tr .ok ∧
      (∀ i, i < ([tA, tB] : List Task).length →
        tr.count (Ev.start i) = 1 ∧ tr.count (Ev.finish i) = 1) ∧
      (∀ i j, i < ([tA, tB] : List Task).length →
        j ∈ depFunOf [(symB, 1), (symA, 0)] [tA, tB] i →
        List.Sublist [Ev.finish j, Ev.start i] tr)) :=
  ⟨rfl, ⟨fun i => i, by decide⟩, by decide,
    claim_c1 [tA, tB] optsDefault (fun _ => 0) [(symB, 1), (symA, 0)] rfl
      ⟨fun i => i, by decide⟩ (by decide)⟩

/-- C5: a required name with zero providers is silently dropped during
resolution: appending such a reference to any task's dependency list leaves
the entire run — resolution, scheduling, trace and result — unchanged, so it
adds no edge, never blocks the task, and never causes an error. -/
theorem claim_c5 (cell : Option InitOptionsInner) (tasks : List Task) (o : Nat → Nat)
    (j : Nat) (s : Symbol) (hs : s ∉ tasks.map Task.symbol) :
    initStaticFrom cell (addExternalDep tasks j s) o = initStaticFrom cell tasks o := by
  cases cell with
  | none => rfl
  | some opts =>
    have hsym := addExternalDep_symbols tasks j s
    simp only [initStaticFrom, hsym]
    cases hbsm : buildSymbolMap (tasks.map Task.symbol) 0 [] with
    | error e => rfl
    | ok m =>
      dsimp only
      have hnone : smLookup m s = none := smLookup_none _ m hbsm s hs
      rw [addExternalDep_length, addExternalDep_buildAdjacent tasks j s m hnone,
        loop_congr (addExternalDep tasks j s) tasks o (addExternalDep_proj tasks j s)]

/-- C5 witness: adding a reference to the unregistered name `BAZ` to task 0 of
the `FOO`/`BAR` chain leaves the run unchanged. -/
theorem claim_c5_witness :
    symC ∉ ([tA, tB] : List Task).map Task.symbol ∧
    initStaticFrom (some optsDefault) (addExternalDep [tA, tB] 0 symC) (fun _ => 0)
      = initStaticFrom (some optsDefault) [tA, tB] (fun _ => 0) :=
  ⟨by decide, claim_c5 (some optsDefault) [tA, tB] (fun _ => 0) 0 symC (by decide)⟩

/-- C6 counterexample: two independent immediate tasks declared in order
`P1`, `Q1` are executed in the hash-set iteration order of the layer — here
the oracle walking the set in reverse — so the start order is `[1, 0]`, not
the declaration order `[0, 1]`: declaration order is not the tie-break among
ready immediate tasks. -/
theorem claim_c6_counterexample :
    initStaticFrom (some optsDefault) [tP, tQ] (fun _ => 1)
      = .returned [Ev.start 1, Ev.finish 1, Ev.start 0, Ev.finish 0] .ok ∧
    startsOf [Ev.start 1, Ev.finish 1, Ev.start 0, Ev.finish 0] = [1, 0] ∧
    ¬ List.Pairwise (fun a b => a ≤ b) [1, 0] := by
  refine ⟨by decide, by decide, by decide⟩

/-- C6 (amended): within each iteration of the scheduler loop, the ready
immediate tasks are executed one at a time on the calling thread of control —
each start immediately followed by its finish, with no interleaving — but in
the iteration order of the layer's hash set, which is some permutation of the
ready set and is not guaranteed to be declaration order. -/
theorem claim_c6 :
    (∀ (o : Nat → Nat) (k : Nat) (l : List Nat), (shuffle o k l).Perm l) ∧
    (∀ (tasks : List Task) (pending : List Nat) (adj : List (Nat × Finset Nat))
        (js : List Nat) (tr : List Ev) (hs : Bool),
      (∀ i ∈ pending, (taskAt tasks i).result = Except.ok ()) →
      ∃ adj' js' hs', processLayer tasks pending adj js tr hs
        = .done adj' js' (tr ++ layerTrace tasks pending) hs') := by
  constructor
  · exact shuffle_perm
  · intro tasks pending
    induction pending with
    | nil =>
      intro adj js tr hs _
      exact ⟨adj, js, hs, by simp [processLayer, layerTrace]⟩
    | cons i l ih =>
      intro adj js tr hs hall
      cases hk : (taskAt tasks i).kind with
      | sync =>
        have hok := hall i (List.mem_cons_self _ _)
        obtain ⟨adj', js', hs', heq⟩ :=
          ih (adj.map (fun p => (p.1, p.2.erase i))) js (tr ++ [Ev.start i, Ev.finish i])
            true (fun x hx => hall x (List.mem_cons_of_mem _ hx))
        refine ⟨adj', js', hs', ?_⟩
        rw [processLayer, hk, hok]
        rw [heq, layerTrace, hk]
        rw [List.append_assoc]
      | async =>
        obtain ⟨adj', js', hs', heq⟩ :=
          ih adj (js ++ [i]) (tr ++ [Ev.start i]) hs
            (fun x hx => hall x (List.mem_cons_of_mem _ hx))
        refine ⟨adj', js', hs', ?_⟩
        rw [processLayer, hk]
        rw [heq, layerTrace, hk]
        rw [List.append_assoc]

/-- C6 witness: a singleton layer is a permutation of itself and its single
immediate task runs start-to-finish in place. -/
theorem claim_c6_witness :
    (shuffle (fun _ => 1) 0 [0, 1]).Perm [0, 1] ∧
    (∀ i ∈ ([0] : List Nat), (taskAt [tP, tQ] i).result = Except.ok ()) ∧
    (∃ adj' js' hs', processLayer [tP, tQ] [0] [] [] [] false
      = .done adj' js' ([] ++ layerTrace [tP, tQ] [0]) hs') :=
  ⟨claim_c6.1 (fun _ => 1) 0 [0, 1], by decide,
    claim_c6.2 [tP, tQ] [0] [] [] [] false (by decide)⟩

/-- C7 counterexample: tasks `[P1, P1, CONS requires P1]` — the name `P1`
required by `CONS` has two providers, yet the run fails with the
duplicate-symbol `Ambiguous` error carrying only the contended symbol, which
is not the dependent task's identity; the same error fires with the dependent
removed, so no `AmbiguousDependency`-style error naming the dependent exists. -/
theorem claim_c7_counterexample :
    some symP ∈ (taskAt [tDup1, tDup2, tCons] 2).deps ∧
    2 ≤ (([tDup1, tDup2, tCons] : List Task).map Task.symbol).count symP ∧
    initStaticFrom (some optsDefault) [tDup1, tDup2, tCons] (fun _ => 0)
      = .returned [] (.error (.Ambiguous symP)) ∧
    symP ≠ symCons ∧
    initStaticFrom (some optsDefault) [tDup1, tDup2] (fun _ => 0)
      = .returned [] (.error (.Ambiguous symP)) :=
  ⟨by decide, by decide, by decide, by decide, by decide⟩

/-- C7 (amended): whenever a task's required name resolves to two or more
providers, that name is provided by two registrations, so `init_static` fails
before any task's action executes (empty trace) — but with the
duplicate-symbol `Ambiguous` error, carrying only a symbol registered at least
twice; there is no separate `AmbiguousDependency` error and the dependent
task's identity is not part of the error. -/
theorem claim_c7 (opts : InitOptionsInner) (tasks : List Task) (o : Nat → Nat)
    (s : Symbol)
    (hreq : ∃ i, i < tasks.length ∧ some s ∈ (taskAt tasks i).deps)
    (hcnt : 2 ≤ (tasks.map Task.symbol).count s) :
    ∃ s', initStaticFrom (some opts) tasks o = .returned [] (.error (.Ambiguous s')) ∧
      2 ≤ (tasks.map Task.symbol).count s' := by
  apply ambiguous_of_dup
  intro hnd
  have := List.nodup_iff_count_le_one.mp hnd s
  omega

/-- C7 witness: the amended statement at the counterexample's input. -/
theorem claim_c7_witness :
    (∃ i, i < ([tDup1, tDup2, tCons] : List Task).length ∧
      some symP ∈ (taskAt [tDup1, tDup2, tCons] i).deps) ∧
    2 ≤ (([tDup1, tDup2, tCons] : List Task).map Task.symbol).count symP ∧
    (∃ s', initStaticFrom (some optsDefault) [tDup1, tDup2, tCons] (fun _ => 0)
        = .returned [] (.error (.Ambiguous s')) ∧
      2 ≤ (([tDup1, tDup2, tCons] : List Task).map Task.symbol).count s') :=
  ⟨⟨2, by decide, by decide⟩, by decide,
    claim_c7 optsDefault [tDup1, tDup2, tCons] (fun _ => 0) symP
      ⟨2, by decide, by decide⟩ (by decide)⟩

/-- C8: the `Display` of an `Execution` error is exactly the underlying
error's text, with no wrapping prefix; and whenever `init_static` returns
`Execution e`, the text `e` is the error produced by some registered task's
action. -/
theorem claim_c8 (e : String) :
    InitError.display (InitError.Execution e) = e ∧
    (∀ (opts : InitOptionsInner) (tasks : List Task) (o : Nat → Nat) (tr : List Ev),
      initStaticFrom (some opts) tasks o = .returned tr (.error (.Execution e)) →
      ∃ f, f < tasks.length ∧ (taskAt tasks f).result = Except.error e) := by
  refine ⟨rfl, ?_⟩
  intro opts tasks o tr h
  cases hbsm : buildSymbolMap (tasks.map Task.symbol) 0 [] with
  | error err =>
    obtain ⟨s, rfl, _⟩ := bsm_error _ 0 [] err hbsm
    have h2 : Entry.returned [] (RunResult.error (.Ambiguous s))
        = Entry.returned tr (.error (.Execution e)) := by
      rw [← h]
      simp [initStaticFrom, hbsm]
    injection h2 with h3 h4
    injection h4 with h5
    cases h5
  | ok m =>
    obtain ⟨tr', res', heq, _, hgo⟩ := initStatic_run tasks opts o m hbsm
    rw [h] at heq
    injection heq with h3 h4
    subst h3
    rw [← h4] at hgo
    obtain ⟨⟨f, hfN, hfr, _, _⟩, _⟩ := hgo
    exact ⟨f, hfN, hfr⟩

/-- C8 witness: the `malformed`-parse scenario displays exactly
`invalid digit found in string`. -/
theorem claim_c8_witness :
    InitError.display (InitError.Execution "invalid digit found in string")
      = "invalid digit found in string" ∧
    initStaticFrom (some optsDefault) [tFail] (fun _ => 0)
      = .returned [Ev.start 0] (.error (.Execution "invalid digit found in string")) ∧
    (∃ f, f < ([tFail] : List Task).length ∧
      (taskAt [tFail] f).result = Except.error "invalid digit found in string") :=
  ⟨(claim_c8 "invalid digit found in string").1, by decide,
    (claim_c8 "invalid digit found in string").2 optsDefault [tFail] (fun _ => 0)
      [Ev.start 0] (by decide)⟩

/-- C9: after a first call of the run entry point has consumed the options
cell, a second call in the same process panics with the documented message —
a fail-fast contract violation — and in particular returns no value at all:
it is neither silently re-run nor surfaced as a recoverable error value. -/
theorem claim_c9 (opts : InitOptionsInner) (tasks₁ : List Task) (o₁ : Nat → Nat)
    (tasks₂ : List Task) (o₂ : Nat → Nat) :
    (callInitStatic (callInitStatic (some opts) tasks₁ o₁).1 tasks₂ o₂).2
      = .panicked "`init_static` can only be called once." ∧
    ∀ tr res, (callInitStatic (callInitStatic (some opts) tasks₁ o₁).1 tasks₂ o₂).2
      ≠ Entry.returned tr res := by
  constructor
  · rfl
  · intro tr res h
    simp [callInitStatic, initStaticFrom] at h

/-- C9 witness: the second call panics for a concrete first and second call. -/
theorem claim_c9_witness :
    (callInitStatic (callInitStatic (some optsDefault) [tA, tB] (fun _ => 0)).1
        [tA, tB] (fun _ => 0)).2
      = .panicked "`init_static` can only be called once." ∧
    (callInitStatic (callInitStatic (some optsDefault) [tA, tB] (fun _ => 0)).1
        [tA, tB] (fun _ => 0)).2 ≠ Entry.returned [] .ok :=
  ⟨(claim_c9 optsDefault [tA, tB] (fun _ => 0) [tA, tB] (fun _ => 0)).1,
    (claim_c9 optsDefault [tA, tB] (fun _ => 0) [tA, tB] (fun _ => 0)).2 [] .ok⟩

/-- C10: in every run — success, `Ambiguous`, `Circular` or `Execution` — each
registered task's init function is invoked at most once (at most one start and
one finish event per index in the trace); and over an empty task set the run
performs no invocations and returns success immediately. -/
theorem claim_c10 (cell : Option InitOptionsInner) (tasks : List Task) (o : Nat → Nat) :
    (∀ tr res, initStaticFrom cell tasks o = .returned tr res →
      ∀ i, tr.count (Ev.start i) ≤ 1 ∧ tr.count (Ev.finish i) ≤ 1) ∧
    (∀ opts : InitOptionsInner,
      initStaticFrom (some opts) ([] : List Task) o = .returned [] .ok) := by
  constructor
  · intro tr res h i
    cases cell with
    | none => simp [initStaticFrom] at h
    | some opts =>
      cases hbsm : buildSymbolMap (tasks.map Task.symbol) 0 [] with
      | error e =>
        have h2 : Entry.returned [] (RunResult.error e) = Entry.returned tr res := by
          rw [← h]
          simp [initStaticFrom, hbsm]
        injection h2 with h3 _
        subst h3
        simp
      | ok m =>
        obtain ⟨tr', res', heq, htf, _⟩ := initStatic_run tasks opts o m hbsm
        rw [h] at heq
        injection heq with h3 _
        subst h3
        constructor
        · by_cases hst : started tr i
          · rw [(htf.1 i hst).2]
          · rw [count_zero_of_not_started hst]
            omega
        · by_cases hfn : finished tr i
          · rw [(htf.2.1 i hfn).2.1]
          · rw [count_zero_of_not_finished hfn]
            omega
  · intro _
    rfl

/-- C10 witness: the `FOO`/`BAR` run has at most one start and finish per
task, and the empty task set returns success with an empty trace. -/
theorem claim_c10_witness :
    initStaticFrom (some optsDefault) [tA, tB] (fun _ => 0)
      = .returned [Ev.start 0, Ev.finish 0, Ev.start 1, Ev.finish 1] .ok ∧
    ([Ev.start 0, Ev.finish 0, Ev.start 1, Ev.finish 1].count (Ev.start 0) ≤ 1 ∧
      [Ev.start 0, Ev.finish 0, Ev.start 1, Ev.finish 1].count (Ev.finish 0) ≤ 1) ∧
    initStaticFrom (some optsDefault) ([] : List Task) (fun _ => 0)
      = .returned [] .ok :=
  ⟨by decide,
    (claim_c10 (some optsDefault) [tA, tB] (fun _ => 0)).1
      [Ev.start 0, Ev.finish 0, Ev.start 1, Ev.finish 1] .ok (by decide) 0,
    (claim_c10 (some optsDefault) [] (fun _ => 0)).2 optsDefault⟩

end InitStatic
